import Mathlib

/-! Docker image references and command descriptors.

A shallow embedding of `jfrog-cli/artifactory/utils/docker/docker.go`.

* A Go `string` is a sequence of bytes: `GoString := List UInt8`.  String
  literals of the source are written `str "..."` (their UTF-8 encoding).
* Go indices are `Int` (`strings.Index` answers `-1` for "absent").
* A slice expression `s[lo:hi]` panics at run time when its bounds are out of
  range; functions that slice answer an `Option`, `none` standing for the panic.
* `strings.Index`, `strings.LastIndex`, `strings.Trim`, `path.Join`,
  `path.Clean` and `exec.Command` belong to the Go standard library; they are
  embedded here from their library sources, at the instances the program uses.
* The executor (`utils.RunCmd`, `utils.RunCmdOutput`), the host test
  `cliutils.IsWindows` and the host-dependent library functions
  `filepath.Base` and `exec.LookPath` behind `exec.Command` are parameters of
  the functions that call them.
-/

namespace Docker

/-- A Go string: an immutable sequence of bytes. -/
abbrev GoString := List UInt8

/-- The bytes (UTF-8) of a string literal. -/
def str (s : String) : GoString := s.toList.flatMap String.utf8EncodeChar

/-- The byte `'/'`. -/
def slash : UInt8 := 47

/-- The byte `':'`. -/
def colon : UInt8 := 58

/-- The byte `'.'`. -/
def dot : UInt8 := 46

/-! ## Standard library: `strings` -/

/-- Go `strings.Index(s, sep)` for a one-byte `sep`: the index of the first
occurrence of `c` in `s`, or `-1`. -/
def Index : GoString → UInt8 → Int
  | [], _ => -1
  | b :: bs, c =>
    if b = c then 0
    else
      let r := Index bs c
      if r < 0 then -1 else r + 1

/-- Go `strings.LastIndex(s, sep)` for a one-byte `sep`: the index of the last
occurrence of `c` in `s`, or `-1`. -/
def LastIndex : GoString → UInt8 → Int
  | [], _ => -1
  | b :: bs, c =>
    let r := LastIndex bs c
    if 0 ≤ r then r + 1
    else if b = c then 0
    else -1

/-- The Go slice expression `s[lo:hi]`; `none` is the run-time panic
"slice bounds out of range". -/
def slice (s : GoString) (lo hi : Int) : Option GoString :=
  if 0 ≤ lo ∧ lo ≤ hi ∧ hi ≤ (s.length : Int) then
    some ((s.take hi.toNat).drop lo.toNat)
  else none

/-- The Go slice expression `s[lo:]`. -/
def sliceFrom (s : GoString) (lo : Int) : Option GoString :=
  slice s lo s.length

/-- The Go slice expression `s[:hi]`. -/
def sliceTo (s : GoString) (hi : Int) : Option GoString :=
  slice s 0 hi

/-! ## Standard library: `path` -/

/-- The inner loop of the `..` case of `path.Clean`, on the reversed buffer:
`c` is the byte at `out.w`, the list holds the bytes below `out.w`.
`for out.w > dotdot && out.index(out.w) != '/' { out.w-- }`. -/
def unwind (dotdot : Nat) : UInt8 → List UInt8 → List UInt8
  | _, [] => []
  | c, d :: ds =>
    if (d :: ds).length > dotdot ∧ c ≠ slash then unwind dotdot d ds
    else d :: ds

/-- The `..` case of `path.Clean` when it can backtrack: `out.w--` followed
by the loop `unwind`. The buffer is the list of the first `out.w` bytes. -/
def backtrack (dotdot : Nat) (out : GoString) : GoString :=
  match out.reverse with
  | [] => []
  | c :: ds => (unwind dotdot c ds).reverse

/-- The main loop `for r < n` of `path.Clean`. The second list is `path[r:]`,
the third the buffer `out` (its first `out.w` bytes). Every round consumes at
least one byte of `path[r:]`, so `n` rounds are enough; the first argument
bounds the number of rounds. -/
def cleanLoop (rooted : Bool) : Nat → GoString → GoString → Nat → GoString
  | 0, _, out, _ => out
  | _ + 1, [], out, _ => out
  | fuel + 1, c :: cs, out, dotdot =>
    if c = slash then
      -- empty path element
      cleanLoop rooted fuel cs out dotdot
    else if c = dot ∧ (cs = [] ∨ cs.head? = some slash) then
      -- . element
      cleanLoop rooted fuel cs out dotdot
    else if c = dot ∧ cs.head? = some dot ∧
        (cs.tail = [] ∨ cs.tail.head? = some slash) then
      -- .. element: remove to last /
      if out.length > dotdot then
        cleanLoop rooted fuel cs.tail (backtrack dotdot out) dotdot
      else if rooted = false then
        let out1 := if out.length > 0 then out ++ [slash] else out
        let out2 := out1 ++ [dot, dot]
        cleanLoop rooted fuel cs.tail out2 out2.length
      else
        cleanLoop rooted fuel cs.tail out dotdot
    else
      -- real path element: add slash if needed, then copy the element
      let out1 :=
        if (rooted = true ∧ out.length ≠ 1) ∨ (rooted = false ∧ out.length ≠ 0) then
          out ++ [slash]
        else out
      cleanLoop rooted fuel ((c :: cs).dropWhile (fun b => b ≠ slash))
        (out1 ++ (c :: cs).takeWhile (fun b => b ≠ slash)) dotdot

/-- Go `path.Clean`. -/
def Clean (path : GoString) : GoString :=
  if path = [] then str "."
  else
    let rooted : Bool := path.head? = some slash
    let out :=
      if rooted then cleanLoop rooted path.length path.tail [slash] 1
      else cleanLoop rooted path.length path [] 0
    if out.length = 0 then str "." else out

/-- Go `path.Join`: the elements from the first non-empty one on are joined
with `/` and the result is cleaned; empty when all elements are empty. -/
def Join : List GoString → GoString
  | [] => []
  | e :: es =>
    if e ≠ [] then Clean (List.intercalate [slash] (e :: es))
    else Join es

/-! ## The image -/

/-- Internal implementation of docker image. -/
structure image where
  /-- The raw reference string. -/
  tag : GoString
deriving DecidableEq, Repr

/-- The constructor `New(imageTag)`. -/
def New (imageTag : GoString) : image := { tag := imageTag }

/-- Get docker image tag. -/
def image.Tag (img : image) : GoString := img.tag

/-- Get docker image relative path in Artifactory. -/
def image.Path (img : image) : Option GoString :=
  let indexOfFirstSlash := Index img.tag slash
  let indexOfLastColon := LastIndex img.tag colon
  if indexOfLastColon < 0 ∨ indexOfLastColon < indexOfFirstSlash then
    (sliceFrom img.tag indexOfFirstSlash).bind fun a =>
      some (Join [a, str "latest"])
  else
    (slice img.tag indexOfFirstSlash indexOfLastColon).bind fun a =>
      (sliceFrom img.tag (indexOfLastColon + 1)).bind fun b =>
        some (Join [a, b])

/-- Get docker image name. -/
def image.Name (img : image) : Option GoString :=
  let indexOfLastSlash := LastIndex img.tag slash
  let indexOfLastColon := LastIndex img.tag colon
  if indexOfLastColon < 0 ∨ indexOfLastColon < indexOfLastSlash then
    (sliceFrom img.tag (indexOfLastSlash + 1)).bind fun a =>
      some (a ++ str ":latest")
  else
    sliceFrom img.tag (indexOfLastSlash + 1)

/-! ## Command descriptors -/

/-- A Go `error` value made by `errors.New`. -/
structure GoError where
  /-- The message of the error. -/
  msg : GoString
deriving DecidableEq, Repr

/-- Go `errors.New`. -/
def errorsNew (text : GoString) : GoError := { msg := text }

/-- The host, as `exec.Command` sees it: the two library functions whose
answers depend on the machine the program runs on. -/
structure Host where
  /-- Go `filepath.Base`: the last element of a path, by the host's rules. -/
  Base : GoString → GoString
  /-- Go `exec.LookPath`: the executable found for a name in the host's search
  path, with a `nil` error, or an error when there is none. -/
  LookPath : GoString → GoString × Option GoError

/-- Go `exec.Cmd`, the fields that `exec.Command` sets: `Path` is the path of
the program to run, `Args` the argument vector, the program name first,
`lookPathErr` the error of the lookup of the program, if any. -/
structure Cmd where
  /-- The path of the program to run. -/
  Path : GoString
  /-- The argument vector, `Args[0]` being the program name. -/
  Args : List GoString
  /-- The error of `LookPath`, `none` being `nil`. -/
  lookPathErr : Option GoError
deriving DecidableEq, Repr

/-- Go `exec.Command(name, arg...)`: `Args` is `name` followed by `arg`, and
`Path` is `name`; when `name` is a bare file name (`filepath.Base(name) ==
name`) it is looked up in the search path of the host: `Path` becomes the
executable found, or the error of the lookup is kept in `lookPathErr`. -/
def Command (host : Host) (name : GoString) (arg : List GoString) : Cmd :=
  let cmd : Cmd := { Path := name, Args := name :: arg, lookPathErr := none }
  if host.Base name = name then
    match host.LookPath name with
    | (lp, none) => { cmd with Path := lp }
    | (_, some err) => { cmd with lookPathErr := some err }
  else cmd

/-- An environment mapping `map[string]string`, as the list of its entries. -/
abbrev Env := List (GoString × GoString)

/-- Image push command. -/
structure pushCmd where
  /-- The image to push. -/
  image : image
deriving DecidableEq, Repr

/-- The descriptor of the push command: `cmd[0]` with `cmd[1:]`. -/
def pushCmd.GetCmd (pushCmd : pushCmd) (host : Host) : Cmd :=
  let cmd : List GoString := []
  let cmd := cmd ++ [str "docker"]
  let cmd := cmd ++ [str "push"]
  let cmd := cmd ++ [pushCmd.image.tag]
  Command host (cmd.headD []) cmd.tail

/-- The environment of the push command. -/
def pushCmd.GetEnv (_ : pushCmd) : Env := []

/-- Image get image id command. -/
structure getImageIdCmd where
  /-- The image whose id is asked. -/
  image : image
deriving DecidableEq, Repr

/-- The descriptor of the get image id command. -/
def getImageIdCmd.GetCmd (getImageId : getImageIdCmd) (host : Host) : Cmd :=
  let cmd : List GoString := []
  let cmd := cmd ++ [str "docker"]
  let cmd := cmd ++ [str "images"]
  let cmd := cmd ++ [str "--format", str "\x7b\x7b.ID\x7d\x7d"]
  let cmd := cmd ++ [str "--no-trunc"]
  let cmd := cmd ++ [getImageId.image.tag]
  Command host (cmd.headD []) cmd.tail

/-- The environment of the get image id command. -/
def getImageIdCmd.GetEnv (_ : getImageIdCmd) : Env := []

/-- Image get parent image id command. -/
structure getParentId where
  /-- The image whose parent is asked. -/
  image : image
deriving DecidableEq, Repr

/-- The descriptor of the get parent image id command. -/
def getParentId.GetCmd (getImageId : getParentId) (host : Host) : Cmd :=
  let cmd : List GoString := []
  let cmd := cmd ++ [str "docker"]
  let cmd := cmd ++ [str "inspect"]
  let cmd := cmd ++ [str "--format", str "\x7b\x7b.Parent\x7d\x7d"]
  let cmd := cmd ++ [getImageId.image.tag]
  Command host (cmd.headD []) cmd.tail

/-- The environment of the get parent image id command. -/
def getParentId.GetEnv (_ : getParentId) : Env := []

/-! ## Registry resolution -/

/-- Modelled from the spec: `errorutils.CheckError` of the client library is
not part of the sources at hand; errors are returned to the immediate caller,
so the error it is given is the error it hands back (`none` is Go `nil`). -/
def CheckError (err : Option GoError) : Option GoError := err

/-- Get docker registry from tag. The pair is Go `(string, error)`; the outer
`Option` is `none` when a slice expression panics. -/
def ResolveRegistryFromTag (imageTag : GoString) : Option (GoString × Option GoError) :=
  let indexOfFirstSlash := Index imageTag slash
  if indexOfFirstSlash < 0 then
    let err := CheckError (some (errorsNew (str
      "Invalid image tag received for pushing to Artifactory - tag does not include a slash.")))
    some ([], err)
  else
    (sliceFrom imageTag (indexOfFirstSlash + 1)).bind fun rest =>
      let indexOfSecondSlash := Index rest slash
      -- Reverse proxy Artifactory
      if indexOfSecondSlash < 0 then
        (sliceTo imageTag indexOfFirstSlash).bind fun r => some (r, none)
      else
        -- Can be reverse proxy or proxy-less Artifactory
        let indexOfSecondSlash := indexOfSecondSlash + (indexOfFirstSlash + 1)
        (sliceTo imageTag indexOfSecondSlash).bind fun r => some (r, none)

/-! ## Login -/

/-- Login command. -/
structure LoginCmd where
  /-- The registry to log in to. -/
  DockerRegistry : GoString
  /-- The user. -/
  Username : GoString
  /-- The secret of the user. -/
  Password : GoString
deriving DecidableEq, Repr

/-- The descriptor of the login command. `isWindows` is the answer of
`cliutils.IsWindows()`, a property of the host. -/
def LoginCmd.GetCmd (loginCmd : LoginCmd) (host : Host) (isWindows : Bool) : Cmd :=
  let cmdLogin := str "| docker login " ++ loginCmd.DockerRegistry ++ str " --username=" ++
    loginCmd.Username ++ str " --password-stdin"
  if isWindows then
    let cmd := str "echo %DOCKER_PASS%" ++ cmdLogin
    Command host (str "cmd") [str "/C", cmd]
  else
    let cmd := str "echo $DOCKER_PASS " ++ cmdLogin
    Command host (str "bash") [str "-c", cmd]

/-- The environment of the login command. -/
def LoginCmd.GetEnv (loginCmd : LoginCmd) : Env :=
  [(str "DOCKER_PASS", loginCmd.Password)]

/-! ## Running the commands -/

/-- The byte `'\n'`. -/
def newline : UInt8 := 10

/-- Go `trimLeftByte` of package `strings`:
`for len(s) > 0 && s[0] == c { s = s[1:] }`. -/
def trimLeftByte : GoString → UInt8 → GoString
  | [], _ => []
  | b :: bs, c => if b = c then trimLeftByte bs c else b :: bs

/-- Go `trimRightByte` of package `strings`:
`for len(s) > 0 && s[len(s)-1] == c { s = s[:len(s)-1] }`. -/
def trimRightByte (s : GoString) (c : UInt8) : GoString :=
  (trimLeftByte s.reverse c).reverse

/-- Go `strings.Trim(s, cutset)` for a cutset of one ASCII byte `c`: all
leading and all trailing `c` are removed. -/
def Trim (s : GoString) (c : UInt8) : GoString :=
  trimLeftByte (trimRightByte s c) c

/-- What the interface `utils.CmdConfig` shows of a command to the executor:
the descriptor and the environment. The two writers are `nil` for every
command of this package. -/
structure CmdConfig where
  /-- The answer of `GetCmd()`. -/
  GetCmd : Cmd
  /-- The answer of `GetEnv()`. -/
  GetEnv : Env
deriving DecidableEq, Repr

/-- The push command behind the interface. -/
def pushCmd.toConfig (cmd : pushCmd) (host : Host) : CmdConfig :=
  { GetCmd := cmd.GetCmd host, GetEnv := cmd.GetEnv }

/-- The get image id command behind the interface. -/
def getImageIdCmd.toConfig (cmd : getImageIdCmd) (host : Host) : CmdConfig :=
  { GetCmd := cmd.GetCmd host, GetEnv := cmd.GetEnv }

/-- The get parent image id command behind the interface. -/
def getParentId.toConfig (cmd : getParentId) (host : Host) : CmdConfig :=
  { GetCmd := cmd.GetCmd host, GetEnv := cmd.GetEnv }

/-- Push docker image. `RunCmd` is the executor `utils.RunCmd`, which is not
part of this package: it answers the error of the run (`none` is `nil`). -/
def image.Push (host : Host) (RunCmd : CmdConfig → Option GoError) (img : image) :
    Option GoError :=
  let cmd : pushCmd := { image := img }
  RunCmd (cmd.toConfig host)

/-- Get docker image ID. `RunCmdOutput` is the executor `utils.RunCmdOutput`,
which is not part of this package: it answers the captured output and the
error of the run. -/
def image.Id (host : Host) (RunCmdOutput : CmdConfig → GoString × Option GoError)
    (img : image) :
    GoString × Option GoError :=
  let cmd : getImageIdCmd := { image := img }
  let (content, err) := RunCmdOutput (cmd.toConfig host)
  (Trim content newline, err)

/-- Get docker parent image ID. -/
def image.ParentId (host : Host) (RunCmdOutput : CmdConfig → GoString × Option GoError)
    (img : image) :
    GoString × Option GoError :=
  let cmd : getParentId := { image := img }
  let (content, err) := RunCmdOutput (cmd.toConfig host)
  (Trim content newline, err)

/-! ## Specification-side notions -/

/-- Go `filepath.Base` on a Unix host: `"."` for the empty path; otherwise
the trailing `'/'` are dropped and what follows the last `'/'` is kept, `"/"`
when nothing is left. -/
def unixBase (path : GoString) : GoString :=
  if path = [] then str "."
  else
    let last := ((trimRightByte path slash).reverse.takeWhile (fun b => b ≠ slash)).reverse
    if last = [] then [slash] else last

/-- A sample Unix host, for evaluating instances: `docker` and `bash` are
installed under `/usr/bin`, no other program is found. -/
def unixHost : Host where
  Base := unixBase
  LookPath := fun file =>
    if file = str "docker" ∨ file = str "bash" then (str "/usr/bin/" ++ file, none)
    else ([], some (errorsNew (str "executable file not found in $PATH")))


/-- The substring of `s` after its last `c`, the whole of `s` when `c` does
not occur: the longest suffix of `s` free of `c`. -/
def afterLast (c : UInt8) (s : GoString) : GoString :=
  (s.reverse.takeWhile (fun b => b ≠ c)).reverse

/-- The byte `c` occurs in `s` at index `i` and nowhere after `i`. -/
def IsLastAt (s : GoString) (c : UInt8) (i : Nat) : Prop :=
  s[i]? = some c ∧ ∀ k, i < k → s[k]? ≠ some c

/-- The byte `c` occurs in `s` at index `i` and nowhere before `i`. -/
def IsFirstAt (s : GoString) (c : UInt8) (i : Nat) : Prop :=
  s[i]? = some c ∧ ∀ k, k < i → s[k]? ≠ some c

/-- A path element that `path.Clean` copies as it is: non-empty, free of
`'/'`, and neither `"."` nor `".."`. -/
def PathElement (s : GoString) : Prop :=
  s ≠ [] ∧ slash ∉ s ∧ s ≠ [dot] ∧ s ≠ [dot, dot]

instance (s : GoString) : Decidable (PathElement s) := by
  unfold PathElement
  infer_instance

/-- A plain segment of a reference: a path element free of `':'`. -/
def PlainSegment (s : GoString) : Prop :=
  PathElement s ∧ colon ∉ s

instance (s : GoString) : Decidable (PlainSegment s) := by
  unfold PlainSegment
  infer_instance

/-- The rooted path `/s1/s2/.../sn` of the segments `s1, ..., sn`. -/
def rootedPath : List GoString → GoString
  | [] => []
  | s :: segs => slash :: s ++ rootedPath segs

/-- The tail of the login command line, as the specification words it:
`"| docker login <registry> --username=<username> --password-stdin"`. -/
def loginSuffix (registry username : GoString) : GoString :=
  str "| docker login " ++ registry ++ str " --username=" ++ username ++ str " --password-stdin"

/-- A rooted, normalised path: `"/"` alone, or `/s1/.../sn` with `n ≥ 1`
elements that are non-empty and free of `'/'`. -/
def RootedNormal (out : GoString) : Prop :=
  out = [slash] ∨
    ∃ segs : List GoString, segs ≠ [] ∧ (∀ s ∈ segs, s ≠ [] ∧ slash ∉ s) ∧ out = rootedPath segs

/-! ## Facts about the library functions -/

theorem slash_ne_colon : slash ≠ colon := by decide

theorem LastIndex_ge (s : GoString) (c : UInt8) : -1 ≤ LastIndex s c := by
  induction s with
  | nil => simp [LastIndex]
  | cons b bs ih =>
    simp only [LastIndex]
    split_ifs <;> omega

theorem LastIndex_lt (s : GoString) (c : UInt8) : LastIndex s c < (s.length : Int) := by
  induction s with
  | nil => simp [LastIndex]
  | cons b bs ih =>
    simp only [LastIndex, List.length_cons, Nat.cast_add, Nat.cast_one]
    split_ifs <;> omega

theorem LastIndex_of_not_mem {s : GoString} {c : UInt8} (h : c ∉ s) : LastIndex s c = -1 := by
  induction s with
  | nil => simp [LastIndex]
  | cons b bs ih =>
    have hb : ¬ b = c := fun e => h (by simp [e])
    have hbs : c ∉ bs := fun e => h (by simp [e])
    simp [LastIndex, ih hbs, hb]

theorem LastIndex_nonneg_of_mem {s : GoString} {c : UInt8} (h : c ∈ s) : 0 ≤ LastIndex s c := by
  induction s with
  | nil => simp at h
  | cons b bs ih =>
    simp only [LastIndex]
    have := LastIndex_ge bs c
    split_ifs with h1 h2
    · omega
    · omega
    · exfalso
      rcases List.mem_cons.mp h with e | e
      · exact h2 e.symm
      · exact h1 (ih e)

theorem LastIndex_neg_iff (s : GoString) (c : UInt8) : LastIndex s c < 0 ↔ c ∉ s := by
  constructor
  · intro h hm
    have := LastIndex_nonneg_of_mem hm
    omega
  · intro h
    rw [LastIndex_of_not_mem h]; decide

theorem LastIndex_append_cons (p : GoString) {s : GoString} {c : UInt8} (h : c ∉ s) :
    LastIndex (p ++ c :: s) c = (p.length : Int) := by
  induction p with
  | nil => simp [LastIndex, LastIndex_of_not_mem h]
  | cons b bs ih =>
    rw [List.cons_append]
    simp only [LastIndex, List.length_cons, Nat.cast_add, Nat.cast_one]
    rw [ih]
    split_ifs <;> omega

theorem exists_last_split {s : GoString} {c : UInt8} (h : c ∈ s) :
    ∃ p t, s = p ++ c :: t ∧ c ∉ t := by
  induction s with
  | nil => simp at h
  | cons b bs ih =>
    by_cases hm : c ∈ bs
    · obtain ⟨p, t, e, ht⟩ := ih hm
      exact ⟨b :: p, t, by simp [e], ht⟩
    · rcases List.mem_cons.mp h with e | e
      · exact ⟨[], bs, by simp [e], hm⟩
      · exact absurd e hm

theorem Index_of_not_mem {s : GoString} {c : UInt8} (h : c ∉ s) : Index s c = -1 := by
  induction s with
  | nil => simp [Index]
  | cons b bs ih =>
    have hb : ¬ b = c := fun e => h (by simp [e])
    have hbs : c ∉ bs := fun e => h (by simp [e])
    simp [Index, ih hbs, hb]

theorem Index_append_cons {p : GoString} {c : UInt8} (h : c ∉ p) (s : GoString) :
    Index (p ++ c :: s) c = (p.length : Int) := by
  induction p with
  | nil => simp [Index]
  | cons b bs ih =>
    have hb : ¬ b = c := fun e => h (by simp [e])
    have hbs : c ∉ bs := fun e => h (by simp [e])
    rw [List.cons_append]
    simp only [Index, hb, if_false, List.length_cons, Nat.cast_add, Nat.cast_one]
    rw [ih hbs]
    split_ifs <;> omega

theorem exists_first_split {s : GoString} {c : UInt8} (h : c ∈ s) :
    ∃ p t, s = p ++ c :: t ∧ c ∉ p := by
  induction s with
  | nil => simp at h
  | cons b bs ih =>
    by_cases hb : b = c
    · exact ⟨[], bs, by simp [hb], by simp⟩
    · rcases List.mem_cons.mp h with e | e
      · exact absurd e.symm hb
      · obtain ⟨p, t, e1, hp⟩ := ih e
        refine ⟨b :: p, t, by simp [e1], ?_⟩
        intro hm
        rcases List.mem_cons.mp hm with e2 | e2
        · exact hb e2.symm
        · exact hp e2

theorem Index_neg_iff (s : GoString) (c : UInt8) : Index s c < 0 ↔ c ∉ s := by
  constructor
  · intro h hm
    obtain ⟨p, t, e, hp⟩ := exists_first_split hm
    rw [e, Index_append_cons hp] at h
    omega
  · intro h
    rw [Index_of_not_mem h]; decide

theorem IsLastAt_append_cons (p : GoString) {s : GoString} {c : UInt8} (h : c ∉ s) :
    IsLastAt (p ++ c :: s) c p.length := by
  refine ⟨by rw [List.getElem?_append_right (le_refl _)]; simp, ?_⟩
  intro k hk hget
  have hk2 : p.length ≤ k := by omega
  rw [List.getElem?_append_right hk2] at hget
  obtain ⟨m, hm⟩ : ∃ m, k - p.length = m + 1 := ⟨k - p.length - 1, by omega⟩
  rw [hm, List.getElem?_cons_succ] at hget
  exact h (List.getElem?_mem hget)

theorem IsLastAt_unique {s : GoString} {c : UInt8} {i j : Nat}
    (hi : IsLastAt s c i) (hj : IsLastAt s c j) : i = j := by
  rcases Nat.lt_trichotomy i j with h | h | h
  · exact absurd hj.1 (hi.2 j h)
  · exact h
  · exact absurd hi.1 (hj.2 i h)

theorem IsFirstAt_append_cons {p : GoString} {c : UInt8} (h : c ∉ p) (s : GoString) :
    IsFirstAt (p ++ c :: s) c p.length := by
  refine ⟨by rw [List.getElem?_append_right (le_refl _)]; simp, ?_⟩
  intro k hk hget
  rw [List.getElem?_append_left hk] at hget
  exact h (List.getElem?_mem hget)

theorem IsFirstAt_unique {s : GoString} {c : UInt8} {i j : Nat}
    (hi : IsFirstAt s c i) (hj : IsFirstAt s c j) : i = j := by
  rcases Nat.lt_trichotomy i j with h | h | h
  · exact absurd hi.1 (hj.2 i h)
  · exact h
  · exact absurd hj.1 (hi.2 j h)

/-- `strings.LastIndex` answers the index of the last occurrence. -/
theorem LastIndex_eq_iff {s : GoString} {c : UInt8} (i : Nat) :
    LastIndex s c = (i : Int) ↔ IsLastAt s c i := by
  constructor
  · intro h
    have hm : c ∈ s := by
      by_contra hn
      rw [LastIndex_of_not_mem hn] at h
      omega
    obtain ⟨p, t, e, ht⟩ := exists_last_split hm
    subst e
    rw [LastIndex_append_cons p ht] at h
    have : p.length = i := by exact_mod_cast h
    subst this
    exact IsLastAt_append_cons p ht
  · intro h
    have hm : c ∈ s := List.getElem?_mem h.1
    obtain ⟨p, t, e, ht⟩ := exists_last_split hm
    subst e
    rw [LastIndex_append_cons p ht, IsLastAt_unique h (IsLastAt_append_cons p ht)]

/-- `strings.Index` answers the index of the first occurrence. -/
theorem Index_eq_iff {s : GoString} {c : UInt8} (i : Nat) :
    Index s c = (i : Int) ↔ IsFirstAt s c i := by
  constructor
  · intro h
    have hm : c ∈ s := by
      by_contra hn
      rw [Index_of_not_mem hn] at h
      omega
    obtain ⟨p, t, e, hp⟩ := exists_first_split hm
    subst e
    rw [Index_append_cons hp] at h
    have : p.length = i := by exact_mod_cast h
    subst this
    exact IsFirstAt_append_cons hp t
  · intro h
    have hm : c ∈ s := List.getElem?_mem h.1
    obtain ⟨p, t, e, hp⟩ := exists_first_split hm
    subst e
    rw [Index_append_cons hp, IsFirstAt_unique h (IsFirstAt_append_cons hp t)]

theorem slice_append (a b c : GoString) :
    slice (a ++ b ++ c) (a.length : Int) ((a.length + b.length : Nat) : Int) = some b := by
  unfold slice
  rw [if_pos]
  · rw [Int.toNat_ofNat, Int.toNat_ofNat, List.append_assoc, ← List.length_append,
      ← List.append_assoc, List.take_left, List.drop_left]
  · simp only [List.length_append]
    omega

theorem sliceFrom_append (a b : GoString) :
    sliceFrom (a ++ b) (a.length : Int) = some b := by
  unfold sliceFrom slice
  rw [if_pos]
  · rw [Int.toNat_ofNat, Int.toNat_ofNat, List.take_length, List.drop_left]
  · simp only [List.length_append]
    omega

theorem sliceFrom_zero (s : GoString) : sliceFrom s 0 = some s := by
  simpa using sliceFrom_append [] s

theorem sliceTo_append (a b : GoString) :
    sliceTo (a ++ b) (a.length : Int) = some a := by
  unfold sliceTo slice
  rw [if_pos]
  · simp
  · simp only [List.length_append]
    omega

theorem sliceFrom_neg (s : GoString) {lo : Int} (h : lo < 0) : sliceFrom s lo = none := by
  unfold sliceFrom slice
  rw [if_neg]
  omega

theorem slice_neg (s : GoString) {lo : Int} (hi : Int) (h : lo < 0) : slice s lo hi = none := by
  unfold slice
  rw [if_neg]
  omega

theorem afterLast_of_not_mem {s : GoString} {c : UInt8} (h : c ∉ s) : afterLast c s = s := by
  unfold afterLast
  rw [List.takeWhile_eq_self_iff.mpr, List.reverse_reverse]
  intro b hb
  have hb2 : b ∈ s := List.mem_reverse.mp hb
  simp only [ne_eq, decide_not, Bool.not_eq_true', decide_eq_false_iff_not]
  intro e
  exact h (e ▸ hb2)

theorem afterLast_append_cons (p : GoString) {s : GoString} {c : UInt8} (h : c ∉ s) :
    afterLast c (p ++ c :: s) = s := by
  unfold afterLast
  have e : (p ++ c :: s).reverse = s.reverse ++ c :: p.reverse := by simp
  rw [e, List.takeWhile_append_of_pos]
  · simp
  · intro b hb
    have hb2 : b ∈ s := List.mem_reverse.mp hb
    simp only [ne_eq, decide_not, Bool.not_eq_true', decide_eq_false_iff_not]
    intro e
    exact h (e ▸ hb2)

theorem afterLast_not_mem (c : UInt8) (s : GoString) : c ∉ afterLast c s := by
  unfold afterLast
  intro h
  have h2 := List.mem_takeWhile_imp (List.mem_reverse.mp h)
  simp at h2

/-- The slice `tag[LastIndex(tag, c)+1:]` never panics: it is the part of
`tag` after its last `c`. -/
theorem sliceFrom_LastIndex (s : GoString) (c : UInt8) :
    sliceFrom s (LastIndex s c + 1) = some (afterLast c s) := by
  by_cases hm : c ∈ s
  · obtain ⟨p, t, e, ht⟩ := exists_last_split hm
    subst e
    rw [LastIndex_append_cons p ht, afterLast_append_cons p ht]
    have := sliceFrom_append (p ++ [c]) t
    simpa using this
  · rw [LastIndex_of_not_mem hm, afterLast_of_not_mem hm]
    exact sliceFrom_zero s

/-! ## The name of an image -/

/-- The value of `Name`, for every reference: the slice never panics. -/
theorem Name_eq (tag : GoString) :
    (New tag).Name =
      some (if LastIndex tag colon < 0 ∨ LastIndex tag colon < LastIndex tag slash then
        afterLast slash tag ++ str ":latest" else afterLast slash tag) := by
  unfold image.Name New
  simp only [sliceFrom_LastIndex]
  split_ifs <;> rfl

/-- The test of `Name` on indices, in words: there is no `':'`, or the last
`':'` stands before the last `'/'`. -/
theorem Name_cond_iff (tag : GoString) :
    (LastIndex tag colon < 0 ∨ LastIndex tag colon < LastIndex tag slash) ↔
      (colon ∉ tag ∨ ∃ i j, IsLastAt tag colon i ∧ IsLastAt tag slash j ∧ i < j) := by
  constructor
  · rintro (h | h)
    · exact Or.inl ((LastIndex_neg_iff tag colon).mp h)
    · by_cases hc : colon ∈ tag
      · right
        have h0 := LastIndex_nonneg_of_mem hc
        refine ⟨(LastIndex tag colon).toNat, (LastIndex tag slash).toNat, ?_, ?_, ?_⟩
        · exact (LastIndex_eq_iff _).mp (by omega)
        · exact (LastIndex_eq_iff _).mp (by omega)
        · omega
      · exact Or.inl hc
  · rintro (h | ⟨i, j, hi, hj, hij⟩)
    · exact Or.inl ((LastIndex_neg_iff tag colon).mpr h)
    · right
      rw [(LastIndex_eq_iff i).mpr hi, (LastIndex_eq_iff j).mpr hj]
      exact_mod_cast hij

/-- C1: for every reference, `Name` is the substring after the last `'/'` (the
whole string when there is none), with `":latest"` appended exactly when the
reference has no `':'` or its last `':'` stands before its last `'/'`;
otherwise that substring is returned as it is. Two instances are evaluated. -/
theorem Name_after_last_slash (tag : GoString) :
    ((colon ∉ tag ∨ ∃ i j, IsLastAt tag colon i ∧ IsLastAt tag slash j ∧ i < j) →
      (New tag).Name = some (afterLast slash tag ++ str ":latest")) ∧
    (¬ (colon ∉ tag ∨ ∃ i j, IsLastAt tag colon i ∧ IsLastAt tag slash j ∧ i < j) →
      (New tag).Name = some (afterLast slash tag)) ∧
    (New (str "registry.io/group/app:1.2")).Name = some (str "app:1.2") ∧
    (New (str "registry.io/group/app")).Name = some (str "app:latest") := by
  refine ⟨?_, ?_, by decide, by decide⟩
  · intro h
    rw [Name_eq, if_pos ((Name_cond_iff tag).mpr h)]
  · intro h
    rw [Name_eq, if_neg (fun h2 => h ((Name_cond_iff tag).mp h2))]

/-- An instance of C1 with a port in the host: the last `':'` (index 4) stands
before the last `'/'` (index 9), and `":latest"` is appended. -/
theorem Name_after_last_slash_witness :
    (New (str "host:5000/app")).Name = some (str "app:latest") :=
  (Name_after_last_slash (str "host:5000/app")).1
    (Or.inr ⟨4, 9, (LastIndex_eq_iff 4).mp (by decide), (LastIndex_eq_iff 9).mp (by decide),
      by decide⟩)

/-- C8: for every reference without `'/'`, `Name` does not fail and takes the
whole string as the part after the last slash: the input followed by
`":latest"` when it has no `':'`, the input unchanged when it has one. -/
theorem Name_without_slash (tag : GoString) (h : slash ∉ tag) :
    (colon ∉ tag → (New tag).Name = some (tag ++ str ":latest")) ∧
    (colon ∈ tag → (New tag).Name = some tag) := by
  rw [Name_eq, afterLast_of_not_mem h, LastIndex_of_not_mem h]
  constructor
  · intro hc
    rw [if_pos (Or.inl ((LastIndex_neg_iff tag colon).mpr hc))]
  · intro hc
    have := LastIndex_nonneg_of_mem hc
    rw [if_neg (by omega)]

/-- Instances of C8: `"app"` becomes `"app:latest"`, `"app:1.2"` stays. -/
theorem Name_without_slash_witness :
    (New (str "app")).Name = some (str "app" ++ str ":latest") ∧
    (New (str "app:1.2")).Name = some (str "app:1.2") :=
  ⟨(Name_without_slash (str "app") (by decide)).1 (by decide),
   (Name_without_slash (str "app:1.2") (by decide)).2 (by decide)⟩

/-! ## Registry resolution -/

/-- A reference with a single `'/'`: the registry is what stands before it. -/
theorem ResolveRegistryFromTag_one_slash {a b : GoString} (ha : slash ∉ a) (hb : slash ∉ b) :
    ResolveRegistryFromTag (a ++ slash :: b) = some (a, none) := by
  unfold ResolveRegistryFromTag
  have h1 : sliceFrom (a ++ slash :: b) ((a.length : Int) + 1) = some b := by
    have := sliceFrom_append (a ++ [slash]) b
    simpa using this
  have h2 : sliceTo (a ++ slash :: b) (a.length : Int) = some a := sliceTo_append a _
  simp only [Index_append_cons ha, h1, Option.some_bind, Index_of_not_mem hb, h2]
  rw [if_neg (by omega), if_pos (by decide)]

/-- A reference with two `'/'` or more: the registry is what stands before
the second one. -/
theorem ResolveRegistryFromTag_two_slashes {a b : GoString} (ha : slash ∉ a) (hb : slash ∉ b)
    (c : GoString) :
    ResolveRegistryFromTag (a ++ slash :: b ++ slash :: c) = some (a ++ slash :: b, none) := by
  unfold ResolveRegistryFromTag
  have e : a ++ slash :: b ++ slash :: c = a ++ slash :: (b ++ slash :: c) := by simp
  have h1 : sliceFrom (a ++ slash :: b ++ slash :: c) ((a.length : Int) + 1) =
      some (b ++ slash :: c) := by
    have := sliceFrom_append (a ++ [slash]) (b ++ slash :: c)
    simpa using this
  have h2 : sliceTo (a ++ slash :: b ++ slash :: c) ((b.length : Int) + ((a.length : Int) + 1)) =
      some (a ++ slash :: b) := by
    have := sliceTo_append (a ++ slash :: b) (slash :: c)
    simp only [List.length_append, List.length_cons, Nat.cast_add, Nat.cast_one] at this
    rw [← this]
    congr 1
    omega
  have h3 : Index (a ++ slash :: b ++ slash :: c) slash = (a.length : Int) := by
    rw [e]; exact Index_append_cons ha _
  simp only [h3, h1, Option.some_bind, Index_append_cons hb, h2]
  rw [if_neg (by omega), if_neg (by omega)]

/-- A reference without `'/'`: the resolution fails, with an empty registry. -/
theorem ResolveRegistryFromTag_no_slash {tag : GoString} (h : slash ∉ tag) :
    ResolveRegistryFromTag tag = some ([], some (errorsNew (str
      "Invalid image tag received for pushing to Artifactory - tag does not include a slash."))) := by
  unfold ResolveRegistryFromTag
  rw [Index_of_not_mem h]
  rfl

/-- A reference with a `'/'` has one of the two shapes above. -/
theorem slash_shapes {tag : GoString} (h : slash ∈ tag) :
    (∃ a b, tag = a ++ slash :: b ∧ slash ∉ a ∧ slash ∉ b) ∨
    (∃ a b c, tag = a ++ slash :: b ++ slash :: c ∧ slash ∉ a ∧ slash ∉ b) := by
  obtain ⟨a, t, e, ha⟩ := exists_first_split h
  by_cases ht : slash ∈ t
  · obtain ⟨b, c, e2, hb⟩ := exists_first_split ht
    exact Or.inr ⟨a, b, c, by simp [e, e2], ha, hb⟩
  · exact Or.inl ⟨a, t, e, ha, ht⟩

/-- C4: `ResolveRegistryFromTag` fails if and only if the reference has no
`'/'`: without one it returns an error and the empty registry, with at least
one it returns a registry and no error; it never panics. Resolving
`"no-slash-here"` fails. -/
theorem ResolveRegistryFromTag_fails_iff (tag : GoString) :
    (slash ∉ tag → ∃ err, ResolveRegistryFromTag tag = some ([], some err)) ∧
    (slash ∈ tag → ∃ registry, ResolveRegistryFromTag tag = some (registry, none)) ∧
    ((∃ registry err, ResolveRegistryFromTag tag = some (registry, some err)) ↔ slash ∉ tag) ∧
    (∃ err, ResolveRegistryFromTag (str "no-slash-here") = some ([], some err)) := by
  have hyes : slash ∈ tag → ∃ registry, ResolveRegistryFromTag tag = some (registry, none) := by
    intro h
    rcases slash_shapes h with ⟨a, b, e, ha, hb⟩ | ⟨a, b, c, e, ha, hb⟩
    · exact ⟨a, by rw [e, ResolveRegistryFromTag_one_slash ha hb]⟩
    · exact ⟨a ++ slash :: b, by rw [e, ResolveRegistryFromTag_two_slashes ha hb]⟩
  refine ⟨fun h => ⟨_, ResolveRegistryFromTag_no_slash h⟩, hyes, ?_,
    ⟨_, ResolveRegistryFromTag_no_slash (by decide)⟩⟩
  constructor
  · rintro ⟨r, err, h⟩ hm
    obtain ⟨r2, h2⟩ := hyes hm
    rw [h2] at h
    simp at h
  · intro h
    exact ⟨_, _, ResolveRegistryFromTag_no_slash h⟩

/-- Instances of C4: `"app:1.2"` has no `'/'` and fails, `"registry.io/app"`
has one and resolves. -/
theorem ResolveRegistryFromTag_fails_iff_witness :
    (∃ err, ResolveRegistryFromTag (str "app:1.2") = some ([], some err)) ∧
    (∃ registry, ResolveRegistryFromTag (str "registry.io/app") = some (registry, none)) :=
  ⟨(ResolveRegistryFromTag_fails_iff (str "app:1.2")).1 (by decide),
   (ResolveRegistryFromTag_fails_iff (str "registry.io/app")).2.1 (by decide)⟩

/-- C5: a reference with exactly one `'/'` resolves to everything before it;
a reference with two `'/'` or more resolves to everything before the second
one. `"registry.io/app:1.2"` resolves to `"registry.io"` and
`"registry.io/group/app:1.2"` to `"registry.io/group"`. -/
theorem ResolveRegistryFromTag_registry :
    (∀ a b : GoString, slash ∉ a → slash ∉ b →
      ResolveRegistryFromTag (a ++ slash :: b) = some (a, none)) ∧
    (∀ a b c : GoString, slash ∉ a → slash ∉ b →
      ResolveRegistryFromTag (a ++ slash :: b ++ slash :: c) = some (a ++ slash :: b, none)) ∧
    ResolveRegistryFromTag (str "registry.io/app:1.2") = some (str "registry.io", none) ∧
    ResolveRegistryFromTag (str "registry.io/group/app:1.2") =
      some (str "registry.io/group", none) :=
  ⟨fun _ _ ha hb => ResolveRegistryFromTag_one_slash ha hb,
   fun _ _ c ha hb => ResolveRegistryFromTag_two_slashes ha hb c,
   by decide, by decide⟩

/-- Instances of C5 through the general statement: one slash, and three. -/
theorem ResolveRegistryFromTag_registry_witness :
    ResolveRegistryFromTag (str "localhost:5000" ++ slash :: str "app") =
      some (str "localhost:5000", none) ∧
    ResolveRegistryFromTag (str "host" ++ slash :: str "a" ++ slash :: str "b/c:1") =
      some (str "host" ++ slash :: str "a", none) :=
  ⟨ResolveRegistryFromTag_registry.1 (str "localhost:5000") (str "app") (by decide) (by decide),
   ResolveRegistryFromTag_registry.2.1 (str "host") (str "a") (str "b/c:1") (by decide)
     (by decide)⟩

/-! ## Command descriptors -/

/-- The argument vector that `exec.Command` builds: the name, then the
arguments, whatever the host. -/
theorem Command_Args (host : Host) (name : GoString) (arg : List GoString) :
    (Command host name arg).Args = name :: arg := by
  unfold Command
  rcases h : host.LookPath name with ⟨lp, _ | err⟩ <;> split_ifs <;> simp [h]

/-- The path that `exec.Command` stores: the name itself, or the executable
that the lookup of the name answered without error. -/
theorem Command_Path (host : Host) (name : GoString) (arg : List GoString) :
    (Command host name arg).Path = name ∨
      host.LookPath name = ((Command host name arg).Path, none) := by
  unfold Command
  rcases h : host.LookPath name with ⟨lp, _ | err⟩ <;> split_ifs <;> simp [h]

/-- When the lookup fails, the path stays the name. -/
theorem Command_Path_of_error (host : Host) (name : GoString) (arg : List GoString)
    {lp : GoString} {err : GoError} (h : host.LookPath name = (lp, some err)) :
    (Command host name arg).Path = name := by
  unfold Command
  split_ifs <;> simp [h]

/-- When the name is a bare file name and the lookup succeeds, the path is
the executable found. -/
theorem Command_Path_of_found (host : Host) (name : GoString) (arg : List GoString)
    {lp : GoString} (hb : host.Base name = name) (h : host.LookPath name = (lp, none)) :
    (Command host name arg).Path = lp := by
  unfold Command
  rw [if_pos hb]
  simp [h]

/-- C6: the login descriptor does not carry the password: for every host,
registry and user, any two passwords give the same program and the same
arguments; the descriptor is a function of registry, user and host alone. -/
theorem LoginCmd_GetCmd_password_free :
    (∀ (host : Host) (registry username password1 password2 : GoString) (isWindows : Bool),
      LoginCmd.GetCmd ⟨registry, username, password1⟩ host isWindows =
        LoginCmd.GetCmd ⟨registry, username, password2⟩ host isWindows) ∧
    (∃ f : Host → GoString → GoString → Bool → Cmd,
      ∀ (host : Host) (l : LoginCmd) (isWindows : Bool),
        l.GetCmd host isWindows = f host l.DockerRegistry l.Username isWindows) :=
  ⟨fun _ _ _ _ _ _ => rfl,
   ⟨fun host registry username isWindows =>
      LoginCmd.GetCmd ⟨registry, username, []⟩ host isWindows,
    fun _ _ _ => rfl⟩⟩

/-- C7: for every reference and every host, the push, image id and parent id
descriptors are `exec.Command("docker", ...)` with `["push", tag]`,
`["images", "--format", "{{.ID}}", "--no-trunc", tag]` and `["inspect",
"--format", "{{.Parent}}", tag]`: the argument vector is the program name
`docker` followed by exactly these arguments, and the path of the program is
`docker` or what the host resolves `docker` to. The last argument is the raw
reference, one element, equal to `Tag()` of the image. On the sample host the
path is `/usr/bin/docker`. -/
theorem GetCmd_descriptors (host : Host) (tag : GoString) :
    pushCmd.GetCmd ⟨New tag⟩ host = Command host (str "docker") [str "push", tag] ∧
    getImageIdCmd.GetCmd ⟨New tag⟩ host = Command host (str "docker")
      [str "images", str "--format", [123, 123, 46, 73, 68, 125, 125], str "--no-trunc", tag] ∧
    getParentId.GetCmd ⟨New tag⟩ host = Command host (str "docker")
      [str "inspect", str "--format", [123, 123, 46, 80, 97, 114, 101, 110, 116, 125, 125], tag] ∧
    (pushCmd.GetCmd ⟨New tag⟩ host).Args = [str "docker", str "push", tag] ∧
    (getImageIdCmd.GetCmd ⟨New tag⟩ host).Args =
      [str "docker", str "images", str "--format", [123, 123, 46, 73, 68, 125, 125],
        str "--no-trunc", tag] ∧
    (getParentId.GetCmd ⟨New tag⟩ host).Args =
      [str "docker", str "inspect", str "--format",
        [123, 123, 46, 80, 97, 114, 101, 110, 116, 125, 125], tag] ∧
    ((pushCmd.GetCmd ⟨New tag⟩ host).Path = str "docker" ∨
      host.LookPath (str "docker") = ((pushCmd.GetCmd ⟨New tag⟩ host).Path, none)) ∧
    ((getImageIdCmd.GetCmd ⟨New tag⟩ host).Path = str "docker" ∨
      host.LookPath (str "docker") = ((getImageIdCmd.GetCmd ⟨New tag⟩ host).Path, none)) ∧
    ((getParentId.GetCmd ⟨New tag⟩ host).Path = str "docker" ∨
      host.LookPath (str "docker") = ((getParentId.GetCmd ⟨New tag⟩ host).Path, none)) ∧
    (pushCmd.GetCmd ⟨New tag⟩ host).Args.getLast? = some (New tag).Tag ∧
    (getImageIdCmd.GetCmd ⟨New tag⟩ host).Args.getLast? = some (New tag).Tag ∧
    (getParentId.GetCmd ⟨New tag⟩ host).Args.getLast? = some (New tag).Tag ∧
    (New tag).Tag = tag ∧
    (pushCmd.GetCmd ⟨New (str "a b:1")⟩ unixHost).Path = str "/usr/bin/docker" ∧
    (pushCmd.GetCmd ⟨New (str "a b:1")⟩ unixHost).Args =
      [str "docker", str "push", str "a b:1"] := by
  have e1 : str "\x7b\x7b.ID\x7d\x7d" = [123, 123, 46, 73, 68, 125, 125] := by decide
  have e2 : str "\x7b\x7b.Parent\x7d\x7d" =
      [123, 123, 46, 80, 97, 114, 101, 110, 116, 125, 125] := by decide
  have h1 : pushCmd.GetCmd ⟨New tag⟩ host = Command host (str "docker") [str "push", tag] := rfl
  have h2 : getImageIdCmd.GetCmd ⟨New tag⟩ host = Command host (str "docker")
      [str "images", str "--format", [123, 123, 46, 73, 68, 125, 125], str "--no-trunc",
        tag] := by
    simp [getImageIdCmd.GetCmd, New, e1]
  have h3 : getParentId.GetCmd ⟨New tag⟩ host = Command host (str "docker")
      [str "inspect", str "--format", [123, 123, 46, 80, 97, 114, 101, 110, 116, 125, 125],
        tag] := by
    simp [getParentId.GetCmd, New, e2]
  refine ⟨h1, h2, h3, ?_, ?_, ?_, ?_, ?_, ?_, ?_, ?_, ?_, rfl, by decide, by decide⟩
  · rw [h1, Command_Args]
  · rw [h2, Command_Args]
  · rw [h3, Command_Args]
  · rw [h1]
    exact Command_Path _ _ _
  · rw [h2]
    exact Command_Path _ _ _
  · rw [h3]
    exact Command_Path _ _ _
  · rw [h1, Command_Args]
    simp [New, image.Tag]
  · rw [h2, Command_Args]
    simp [New, image.Tag]
  · rw [h3, Command_Args]
    simp [New, image.Tag]

/-- C9: for every login command, the environment has exactly one entry, with
key `"DOCKER_PASS"` and the password unchanged as its value; it does not
depend on the registry or on the user. -/
theorem LoginCmd_GetEnv_entry (l : LoginCmd) :
    l.GetEnv = [(str "DOCKER_PASS", l.Password)] ∧
    l.GetEnv.length = 1 ∧
    (∀ registry username : GoString,
      LoginCmd.GetEnv ⟨registry, username, l.Password⟩ = l.GetEnv) :=
  ⟨rfl, rfl, fun _ _ => rfl⟩

/-! ## Cleaning a rooted path -/

theorem rootedPath_shape (segs : List GoString) :
    rootedPath segs = [] ∨ (rootedPath segs).head? = some slash := by
  cases segs with
  | nil => exact Or.inl rfl
  | cons s segs => exact Or.inr rfl

theorem rootedPath_append (xs ys : List GoString) :
    rootedPath (xs ++ ys) = rootedPath xs ++ rootedPath ys := by
  induction xs with
  | nil => rfl
  | cons s xs ih => simp [rootedPath, ih]

theorem rootedPath_singleton (s : GoString) : rootedPath [s] = slash :: s := by
  simp [rootedPath]

theorem not_mem_rootedPath_colon {segs : List GoString} (h : ∀ s ∈ segs, PlainSegment s) :
    colon ∉ rootedPath segs := by
  induction segs with
  | nil => simp [rootedPath]
  | cons s segs ih =>
    have hs := h s (List.mem_cons_self _ _)
    have ih2 := ih (fun t ht => h t (List.mem_cons_of_mem _ ht))
    simp only [rootedPath, List.cons_append, List.mem_cons, List.mem_append, not_or]
    exact ⟨fun e => slash_ne_colon e.symm, hs.2, ih2⟩

theorem takeWhile_element {s R : GoString} (hs : slash ∉ s)
    (hR : R = [] ∨ R.head? = some slash) :
    (s ++ R).takeWhile (fun b => b ≠ slash) = s ∧ (s ++ R).dropWhile (fun b => b ≠ slash) = R := by
  have hall : ∀ b ∈ s, (decide (b ≠ slash)) = true := by
    intro b hb
    simp only [ne_eq, decide_not, Bool.not_eq_true', decide_eq_false_iff_not]
    intro e
    exact hs (e ▸ hb)
  rw [List.takeWhile_append_of_pos hall, List.dropWhile_append_of_pos hall]
  rcases hR with rfl | hR
  · simp
  · cases R with
    | nil => simp
    | cons r R =>
      simp only [List.head?_cons, Option.some.injEq] at hR
      subst hR
      simp

/-- One round of the loop of `path.Clean` on a real path element: the element
is copied, after a `'/'` unless the buffer is the bare root. -/
theorem cleanLoop_element (fuel : Nat) {s R : GoString} (hs : PathElement s)
    (hR : R = [] ∨ R.head? = some slash) (out : GoString) (dotdot : Nat) :
    cleanLoop true (fuel + 1) (s ++ R) out dotdot =
      cleanLoop true fuel R ((if out.length ≠ 1 then out ++ [slash] else out) ++ s) dotdot := by
  obtain ⟨hne, hsl, hd1, hd2⟩ := hs
  obtain ⟨htw, hdw⟩ := takeWhile_element hsl hR
  cases s with
  | nil => exact absurd rfl hne
  | cons c cs =>
    have hc : c ≠ slash := fun e => hsl (by simp [e])
    have h2 : ¬ (c = dot ∧ (cs ++ R = [] ∨ (cs ++ R).head? = some slash)) := by
      rintro ⟨rfl, h⟩
      cases cs with
      | nil => exact hd1 rfl
      | cons d ds =>
        simp only [List.cons_append, List.head?_cons, Option.some.injEq, reduceCtorEq,
          false_or] at h
        exact hsl (by simp [h])
    have h3 : ¬ (c = dot ∧ (cs ++ R).head? = some dot ∧
        ((cs ++ R).tail = [] ∨ (cs ++ R).tail.head? = some slash)) := by
      rintro ⟨rfl, h, h'⟩
      cases cs with
      | nil =>
        rcases hR with rfl | hR
        · simp at h
        · simp only [List.nil_append] at h
          rw [hR] at h
          exact absurd h (by decide)
      | cons d ds =>
        simp only [List.cons_append, List.head?_cons, Option.some.injEq] at h
        subst h
        cases ds with
        | nil => exact hd2 rfl
        | cons e es =>
          simp only [List.cons_append, List.tail_cons, List.head?_cons, Option.some.injEq,
            reduceCtorEq, false_or] at h'
          exact hsl (by simp [h'])
    rw [List.cons_append] at htw hdw ⊢
    rw [cleanLoop, if_neg hc, if_neg h2, if_neg h3]
    simp only [htw, hdw]
    congr 1
    simp

/-- The loop of `path.Clean` on the rest `/s1/.../sn` of a rooted path whose
elements are real: the rest is copied to the buffer as it is. -/
theorem cleanLoop_rootedPath (segs : List GoString) (h : ∀ s ∈ segs, PathElement s) :
    ∀ (fuel : Nat) (out : GoString) (dotdot : Nat), (rootedPath segs).length ≤ fuel →
      out.length ≠ 1 → cleanLoop true fuel (rootedPath segs) out dotdot = out ++ rootedPath segs := by
  induction segs with
  | nil =>
    intro fuel out dotdot _ _
    cases fuel <;> simp [rootedPath, cleanLoop]
  | cons s segs ih =>
    intro fuel out dotdot hf hout
    have hs := h s (List.mem_cons_self _ _)
    have hpos : 0 < s.length := List.length_pos.mpr hs.1
    simp only [rootedPath, List.cons_append, List.length_cons, List.length_append] at hf
    obtain ⟨f, rfl⟩ : ∃ f, fuel = f + 1 + 1 := ⟨fuel - 2, by omega⟩
    rw [rootedPath, List.cons_append, cleanLoop, if_pos rfl,
      cleanLoop_element f hs (rootedPath_shape segs), if_pos hout,
      ih (fun t ht => h t (List.mem_cons_of_mem _ ht)) f _ dotdot (by omega)
        (by simp only [List.length_append, List.length_cons, List.length_nil]; omega)]
    simp

/-- `path.Clean` leaves a rooted path of real elements `/s1/.../sn` as it is. -/
theorem Clean_rootedPath {segs : List GoString} (hne : segs ≠ [])
    (h : ∀ s ∈ segs, PathElement s) : Clean (rootedPath segs) = rootedPath segs := by
  cases segs with
  | nil => exact absurd rfl hne
  | cons s segs =>
    have hs := h s (List.mem_cons_self _ _)
    have hpos : 0 < s.length := List.length_pos.mpr hs.1
    have hloop : cleanLoop true (rootedPath (s :: segs)).length (s ++ rootedPath segs) [slash] 1 =
        slash :: s ++ rootedPath segs := by
      obtain ⟨f, hf⟩ : ∃ f, (rootedPath (s :: segs)).length = f + 1 := ⟨_, rfl⟩
      rw [hf, cleanLoop_element f hs (rootedPath_shape segs), if_neg (by simp),
        cleanLoop_rootedPath segs (fun t ht => h t (List.mem_cons_of_mem _ ht)) f _ 1
          (by simp only [rootedPath, List.cons_append, List.length_cons, List.length_append] at hf
              omega)
          (by simp only [List.length_append, List.length_cons, List.length_nil]; omega)]
      simp
    unfold Clean
    rw [if_neg (by simp [rootedPath])]
    simp only [rootedPath, List.cons_append, List.head?_cons, decide_True, if_true,
      List.tail_cons] at hloop ⊢
    rw [hloop]
    simp

/-! ## The path of an image -/

theorem LastIndex_append_of_not_mem (p : GoString) {R : GoString} {c : UInt8} (h : c ∉ R) :
    LastIndex (p ++ R) c = LastIndex p c := by
  by_cases hp : c ∈ p
  · obtain ⟨a, b, e, hb⟩ := exists_last_split hp
    subst e
    have hbR : c ∉ b ++ R := by
      simp only [List.mem_append, not_or]
      exact ⟨hb, h⟩
    have e2 : a ++ c :: b ++ R = a ++ c :: (b ++ R) := by simp
    rw [e2, LastIndex_append_cons a hbR, LastIndex_append_cons a hb]
  · have hpR : c ∉ p ++ R := by
      simp only [List.mem_append, not_or]
      exact ⟨hp, h⟩
    rw [LastIndex_of_not_mem hpR, LastIndex_of_not_mem hp]

theorem slice_nat (s : GoString) {i j : Nat} (hij : i ≤ j) (hj : j ≤ s.length) :
    slice s (i : Int) (j : Int) = some ((s.take j).drop i) := by
  unfold slice
  rw [if_pos (by omega), Int.toNat_ofNat, Int.toNat_ofNat]

theorem sliceFrom_nat (s : GoString) {i : Nat} (hi : i ≤ s.length) :
    sliceFrom s (i : Int) = some (s.drop i) := by
  unfold sliceFrom
  rw [slice_nat s hi (le_refl _), List.take_length]

theorem lt_length_of_getElem? {s : GoString} {c : UInt8} {i : Nat} (h : s[i]? = some c) :
    i < s.length := by
  obtain ⟨hlt, _⟩ := List.getElem?_eq_some.mp h
  exact hlt

/-- Without a `'/'` the first slice of `Path` has the lower bound `-1`: the
call panics, whatever the rest of the reference. -/
theorem Path_of_not_mem_slash {tag : GoString} (h : slash ∉ tag) : (New tag).Path = none := by
  unfold image.Path New
  simp only [Index_of_not_mem h]
  split_ifs
  · rw [sliceFrom_neg tag (by decide)]
    rfl
  · rw [slice_neg tag _ (by decide)]
    rfl

/-- The two branches of `Path`, on a reference whose first `'/'` is at `i`. -/
theorem Path_of_first_slash {tag : GoString} {i : Nat} (hi : IsFirstAt tag slash i) :
    ((colon ∉ tag ∨ ∃ j, IsLastAt tag colon j ∧ j < i) →
      (New tag).Path = some (Join [tag.drop i, str "latest"])) ∧
    (∀ j, IsLastAt tag colon j → ¬ j < i →
      (New tag).Path = some (Join [(tag.take j).drop i, tag.drop (j + 1)])) := by
  have hI : Index tag slash = (i : Int) := (Index_eq_iff i).mpr hi
  have hlen : i < tag.length := lt_length_of_getElem? hi.1
  constructor
  · intro h
    have hcond : LastIndex tag colon < 0 ∨ LastIndex tag colon < (i : Int) := by
      rcases h with h | ⟨j, hj, hji⟩
      · exact Or.inl ((LastIndex_neg_iff tag colon).mpr h)
      · right
        rw [(LastIndex_eq_iff j).mpr hj]
        exact_mod_cast hji
    unfold image.Path New
    simp only [hI, if_pos hcond, sliceFrom_nat tag (le_of_lt hlen), Option.some_bind]
  · intro j hj hji
    have hL : LastIndex tag colon = (j : Int) := (LastIndex_eq_iff j).mpr hj
    have hjlen : j < tag.length := lt_length_of_getElem? hj.1
    have hcond : ¬ ((j : Int) < 0 ∨ (j : Int) < (i : Int)) := by omega
    have h2 : sliceFrom tag ((j : Int) + 1) = some (tag.drop (j + 1)) := by
      have := sliceFrom_nat tag (i := j + 1) (by omega)
      simpa using this
    unfold image.Path New
    simp only [hI, hL, if_neg hcond, slice_nat tag (not_lt.mp hji) (le_of_lt hjlen), h2,
      Option.some_bind]

theorem Join_rootedPath {segs : List GoString} (hne : segs ≠ [])
    (h : ∀ s ∈ segs, PathElement s) {t : GoString} (ht : PathElement t) :
    Join [rootedPath segs, t] = rootedPath (segs ++ [t]) := by
  have hR : rootedPath segs ≠ [] := by
    cases segs with
    | nil => exact absurd rfl hne
    | cons s segs => simp [rootedPath]
  have hall : ∀ s ∈ segs ++ [t], PathElement s := by
    intro s hs
    rcases List.mem_append.mp hs with hs | hs
    · exact h s hs
    · rw [List.mem_singleton.mp hs]
      exact ht
  have e : List.intercalate [slash] [rootedPath segs, t] = rootedPath (segs ++ [t]) := by
    rw [rootedPath_append, rootedPath_singleton]
    simp [List.intercalate]
  rw [Join, if_pos hR, e, Clean_rootedPath (by simp) hall]

/-- The path of `h/s1/.../sn:t`. -/
theorem Path_tagged {h : GoString} (hh : slash ∉ h) {segs : List GoString} (hne : segs ≠ [])
    (hsegs : ∀ s ∈ segs, PlainSegment s) {t : GoString} (ht : PlainSegment t) :
    (New (h ++ rootedPath segs ++ colon :: t)).Path = some (rootedPath (segs ++ [t])) := by
  obtain ⟨s, segs', rfl⟩ : ∃ s segs', segs = s :: segs' := by
    cases segs with
    | nil => exact absurd rfl hne
    | cons s segs' => exact ⟨s, segs', rfl⟩
  have hI : Index (h ++ rootedPath (s :: segs') ++ colon :: t) slash = (h.length : Int) := by
    have e : h ++ rootedPath (s :: segs') ++ colon :: t =
        h ++ slash :: (s ++ rootedPath segs' ++ colon :: t) := by simp [rootedPath]
    rw [e]
    exact Index_append_cons hh _
  have hL : LastIndex (h ++ rootedPath (s :: segs') ++ colon :: t) colon =
      ((h.length + (rootedPath (s :: segs')).length : Nat) : Int) := by
    rw [LastIndex_append_cons _ ht.2, List.length_append]
  have h1 : slice (h ++ rootedPath (s :: segs') ++ colon :: t) (h.length : Int)
      ((h.length + (rootedPath (s :: segs')).length : Nat) : Int) =
        some (rootedPath (s :: segs')) := slice_append _ _ _
  have h2 : sliceFrom (h ++ rootedPath (s :: segs') ++ colon :: t)
      (((h.length + (rootedPath (s :: segs')).length : Nat) : Int) + 1) = some t := by
    have := sliceFrom_append (h ++ rootedPath (s :: segs') ++ [colon]) t
    simp only [List.append_assoc, List.singleton_append, List.length_append, List.length_cons,
      List.length_nil, Nat.cast_add, Nat.cast_one] at this ⊢
    rw [← this]
    congr 1
  have hcond : ¬ (((h.length + (rootedPath (s :: segs')).length : Nat) : Int) < 0 ∨
      ((h.length + (rootedPath (s :: segs')).length : Nat) : Int) < (h.length : Int)) := by
    omega
  unfold image.Path New
  simp only [hI, hL, if_neg hcond, h1, h2, Option.some_bind]
  rw [Join_rootedPath hne (fun u hu => (hsegs u hu).1) ht.1]

/-- The path of `h/s1/.../sn`, without a tag. -/
theorem Path_untagged {h : GoString} (hh : slash ∉ h) {segs : List GoString} (hne : segs ≠ [])
    (hsegs : ∀ s ∈ segs, PlainSegment s) :
    (New (h ++ rootedPath segs)).Path = some (rootedPath (segs ++ [str "latest"])) := by
  obtain ⟨s, segs', rfl⟩ : ∃ s segs', segs = s :: segs' := by
    cases segs with
    | nil => exact absurd rfl hne
    | cons s segs' => exact ⟨s, segs', rfl⟩
  have hI : Index (h ++ rootedPath (s :: segs')) slash = (h.length : Int) := by
    rw [rootedPath, List.cons_append]
    exact Index_append_cons hh _
  have hL : LastIndex (h ++ rootedPath (s :: segs')) colon = LastIndex h colon :=
    LastIndex_append_of_not_mem h (not_mem_rootedPath_colon hsegs)
  have hcond : LastIndex h colon < 0 ∨ LastIndex h colon < (h.length : Int) :=
    Or.inr (LastIndex_lt h colon)
  unfold image.Path New
  simp only [hI, hL, if_pos hcond, sliceFrom_append, Option.some_bind]
  rw [Join_rootedPath hne (fun u hu => (hsegs u hu).1) (by decide)]

/-- C2: `Path` is not total. On a reference without `'/'` the index of the
first slash is `-1` and the slice `tag[-1:...]` panics: `"app"` (no `'/'`, no
`':'`) and `"app:1.2"` (no `'/'`) both make `Path` fail, while `Name` answers
on the same inputs. -/
theorem Path_panics_without_slash :
    (New (str "app")).Path = none ∧
    (New (str "app:1.2")).Path = none ∧
    Index (str "app") slash = -1 ∧
    sliceFrom (str "app") (Index (str "app") slash) = none ∧
    (New (str "app")).Name = some (str "app:latest") := by
  refine ⟨Path_of_not_mem_slash (by decide), Path_of_not_mem_slash (by decide), ?_, ?_, ?_⟩ <;>
    decide

/-- C3, as stated, fails: the path of `"registry.io/group/app:1.2"` is not
`"group/app/1.2"` and the path of `"registry.io/group/app"` is not
`"group/app/latest"`; both begin with the separator. -/
theorem Path_without_leading_separator_fails :
    (New (str "registry.io/group/app:1.2")).Path ≠ some (str "group/app/1.2") ∧
    (New (str "registry.io/group/app")).Path ≠ some (str "group/app/latest") ∧
    (New (str "registry.io/group/app:1.2")).Path = some (slash :: str "group/app/1.2") ∧
    (New (str "registry.io/group/app")).Path = some (slash :: str "group/app/latest") := by
  decide

/-- C3, amended: for a reference `registry/group/app` with an optional `:tag`
(plain segments), `Path` is the separator followed by the repository segments
and the tag, or `"latest"` without a tag, joined by `'/'`:
`"/group/app/1.2"` and `"/group/app/latest"` for the two instances. -/
theorem Path_registry_group_app (registry group app tag : GoString) (hr : slash ∉ registry)
    (hg : PlainSegment group) (ha : PlainSegment app) :
    (PlainSegment tag →
      (New (registry ++ slash :: group ++ slash :: app ++ colon :: tag)).Path =
        some (slash :: group ++ slash :: app ++ slash :: tag)) ∧
    (New (registry ++ slash :: group ++ slash :: app)).Path =
      some (slash :: group ++ slash :: app ++ slash :: str "latest") ∧
    (New (str "registry.io/group/app:1.2")).Path = some (str "/group/app/1.2") ∧
    (New (str "registry.io/group/app")).Path = some (str "/group/app/latest") := by
  have hsegs : ∀ s ∈ [group, app], PlainSegment s := by
    intro s hs
    simp only [List.mem_cons, List.mem_singleton, List.not_mem_nil, or_false] at hs
    rcases hs with rfl | rfl
    · exact hg
    · exact ha
  refine ⟨?_, ?_, by decide, by decide⟩
  · intro ht
    have := Path_tagged hr (by simp) hsegs ht
    simpa [rootedPath] using this
  · have := Path_untagged hr (by simp) hsegs
    simpa [rootedPath] using this

/-- An instance of the amended C3, with a port in the registry. -/
theorem Path_registry_group_app_witness :
    (New (str "localhost:5000" ++ slash :: str "team" ++ slash :: str "web" ++
        colon :: str "2.0")).Path =
      some (slash :: str "team" ++ slash :: str "web" ++ slash :: str "2.0") ∧
    (New (str "localhost:5000" ++ slash :: str "team" ++ slash :: str "web")).Path =
      some (slash :: str "team" ++ slash :: str "web" ++ slash :: str "latest") :=
  ⟨(Path_registry_group_app (str "localhost:5000") (str "team") (str "web") (str "2.0")
      (by decide) (by decide) (by decide)).1 (by decide),
   (Path_registry_group_app (str "localhost:5000") (str "team") (str "web") (str "2.0")
      (by decide) (by decide) (by decide)).2.1⟩

/-- C10: for every reference with a `'/'`, the first at index `i`: `Path` is
`path.Join(tag[i:], "latest")` when there is no `':'` or the last `':'`, at
`j`, has `j < i`, and `path.Join(tag[i:j], tag[j+1:])` otherwise.
Consequently, for a host `h` without `'/'`, segments `s1..sn` (`n ≥ 1`) and a
tag `t` that are plain (non-empty, free of `'/'` and `':'`, neither `"."` nor
`".."`): `Path(h/s1/.../sn:t) = "/s1/.../sn/t"` and
`Path(h/s1/.../sn) = "/s1/.../sn/latest"`. -/
theorem Path_join_of_slices :
    (∀ (tag : GoString) (i : Nat), IsFirstAt tag slash i →
      ((colon ∉ tag ∨ ∃ j, IsLastAt tag colon j ∧ j < i) →
        (New tag).Path = some (Join [tag.drop i, str "latest"])) ∧
      (∀ j, IsLastAt tag colon j → ¬ j < i →
        (New tag).Path = some (Join [(tag.take j).drop i, tag.drop (j + 1)]))) ∧
    (∀ (h : GoString) (segs : List GoString) (t : GoString), slash ∉ h → segs ≠ [] →
      (∀ s ∈ segs, PlainSegment s) → PlainSegment t →
        (New (h ++ rootedPath segs ++ colon :: t)).Path = some (rootedPath (segs ++ [t]))) ∧
    (∀ (h : GoString) (segs : List GoString), slash ∉ h → segs ≠ [] →
      (∀ s ∈ segs, PlainSegment s) →
        (New (h ++ rootedPath segs)).Path = some (rootedPath segs ++ str "/latest")) := by
  refine ⟨fun tag i hi => Path_of_first_slash hi, ?_, ?_⟩
  · intro h segs t hh hne hsegs ht
    exact Path_tagged hh hne hsegs ht
  · intro h segs hh hne hsegs
    rw [Path_untagged hh hne hsegs, rootedPath_append]
    rfl

/-- Instances of C10: the slices of `"registry.io/group/app:1.2"` (first
`'/'` at 11, last `':'` at 21), and the closed forms for the host
`"localhost:5000"` with three segments, tagged and untagged. -/
theorem Path_join_of_slices_witness :
    (New (str "registry.io/group/app:1.2")).Path =
      some (Join [((str "registry.io/group/app:1.2").take 21).drop 11,
        (str "registry.io/group/app:1.2").drop (21 + 1)]) ∧
    (New (str "localhost:5000" ++ rootedPath [str "a", str "b", str "c"] ++
        colon :: str "1.2")).Path = some (rootedPath ([str "a", str "b", str "c"] ++ [str "1.2"])) ∧
    (New (str "localhost:5000" ++ rootedPath [str "a", str "b", str "c"])).Path =
      some (rootedPath [str "a", str "b", str "c"] ++ str "/latest") :=
  ⟨(Path_join_of_slices.1 (str "registry.io/group/app:1.2") 11
      ((Index_eq_iff 11).mp (by decide))).2 21 ((LastIndex_eq_iff 21).mp (by decide)) (by decide),
   Path_join_of_slices.2.1 (str "localhost:5000") [str "a", str "b", str "c"] (str "1.2")
      (by decide) (by decide) (by decide) (by decide),
   Path_join_of_slices.2.2 (str "localhost:5000") [str "a", str "b", str "c"]
      (by decide) (by decide) (by decide)⟩

/-! ## Login and execution -/

/-- C11: for every registry, user and host the login descriptor is a shell
call, `exec.Command` of a shell, a flag and one command string that ends with
`"| docker login <registry> --username=<username> --password-stdin"`: on
Windows the program is `cmd` with `["/C", "echo %DOCKER_PASS%" + suffix]`,
elsewhere `bash` with `["-c", "echo $DOCKER_PASS " + suffix]`, the suffix
being the same. The argument vector is the program name followed by exactly
these two arguments; the path of the program is the name or what the host
resolves it to (`/usr/bin/bash` for `bash` on the sample host). -/
theorem LoginCmd_GetCmd_shell (host : Host) (registry username password : GoString) :
    LoginCmd.GetCmd ⟨registry, username, password⟩ host true =
      Command host (str "cmd")
        [str "/C", str "echo %DOCKER_PASS%" ++ loginSuffix registry username] ∧
    LoginCmd.GetCmd ⟨registry, username, password⟩ host false =
      Command host (str "bash")
        [str "-c", str "echo $DOCKER_PASS " ++ loginSuffix registry username] ∧
    (LoginCmd.GetCmd ⟨registry, username, password⟩ host true).Args =
      [str "cmd", str "/C", str "echo %DOCKER_PASS%" ++ loginSuffix registry username] ∧
    (LoginCmd.GetCmd ⟨registry, username, password⟩ host false).Args =
      [str "bash", str "-c", str "echo $DOCKER_PASS " ++ loginSuffix registry username] ∧
    (∀ isWindows : Bool, ∃ program flag line,
      LoginCmd.GetCmd ⟨registry, username, password⟩ host isWindows =
        Command host program [flag, line] ∧
      (LoginCmd.GetCmd ⟨registry, username, password⟩ host isWindows).Args =
        [program, flag, line] ∧
      loginSuffix registry username <:+ line) ∧
    ((LoginCmd.GetCmd ⟨registry, username, password⟩ host true).Path = str "cmd" ∨
      host.LookPath (str "cmd") =
        ((LoginCmd.GetCmd ⟨registry, username, password⟩ host true).Path, none)) ∧
    ((LoginCmd.GetCmd ⟨registry, username, password⟩ host false).Path = str "bash" ∨
      host.LookPath (str "bash") =
        ((LoginCmd.GetCmd ⟨registry, username, password⟩ host false).Path, none)) ∧
    (LoginCmd.GetCmd ⟨str "registry.io", str "user", str "secret"⟩ unixHost false).Path =
      str "/usr/bin/bash" ∧
    (LoginCmd.GetCmd ⟨str "registry.io", str "user", str "secret"⟩ unixHost false).Args =
      [str "bash", str "-c",
        str "echo $DOCKER_PASS | docker login registry.io --username=user --password-stdin"] := by
  have h1 : LoginCmd.GetCmd ⟨registry, username, password⟩ host true =
      Command host (str "cmd")
        [str "/C", str "echo %DOCKER_PASS%" ++ loginSuffix registry username] := by
    simp [LoginCmd.GetCmd, loginSuffix]
  have h2 : LoginCmd.GetCmd ⟨registry, username, password⟩ host false =
      Command host (str "bash")
        [str "-c", str "echo $DOCKER_PASS " ++ loginSuffix registry username] := by
    simp [LoginCmd.GetCmd, loginSuffix]
  refine ⟨h1, h2, by rw [h1, Command_Args], by rw [h2, Command_Args], ?_, ?_, ?_,
    by decide, by decide⟩
  · intro isWindows
    cases isWindows with
    | true => exact ⟨_, _, _, h1, by rw [h1, Command_Args], List.suffix_append _ _⟩
    | false => exact ⟨_, _, _, h2, by rw [h2, Command_Args], List.suffix_append _ _⟩
  · rw [h1]
    exact Command_Path _ _ _
  · rw [h2]
    exact Command_Path _ _ _

/-- C13: `Push` returns the error of the executor, `Id` and `ParentId` return
it as their error component, for every executor and every result of it, with
or without output: the error is not replaced, wrapped or dropped. -/
theorem executor_error_propagated (host : Host) (img : image) :
    (∀ RunCmd : CmdConfig → Option GoError,
      img.Push host RunCmd = RunCmd (pushCmd.toConfig ⟨img⟩ host)) ∧
    (∀ RunCmdOutput : CmdConfig → GoString × Option GoError,
      (img.Id host RunCmdOutput).2 = (RunCmdOutput (getImageIdCmd.toConfig ⟨img⟩ host)).2 ∧
      (img.ParentId host RunCmdOutput).2 =
        (RunCmdOutput (getParentId.toConfig ⟨img⟩ host)).2) ∧
    (∀ (content : GoString) (err : Option GoError),
      img.Push host (fun _ => err) = err ∧
      (img.Id host (fun _ => (content, err))).2 = err ∧
      (img.ParentId host (fun _ => (content, err))).2 = err) :=
  ⟨fun _ => rfl, fun _ => ⟨rfl, rfl⟩, fun _ _ => ⟨rfl, rfl, rfl⟩⟩

/-! ## The shape of a name -/

/-- The test of `Name`, seen from the result: `":latest"` is appended exactly
when the part after the last `'/'` has no `':'`. -/
theorem Name_cond_iff_not_mem (tag : GoString) :
    (LastIndex tag colon < 0 ∨ LastIndex tag colon < LastIndex tag slash) ↔
      colon ∉ afterLast slash tag := by
  by_cases hs : slash ∈ tag
  · obtain ⟨p, s, e, hps⟩ := exists_last_split hs
    subst e
    rw [afterLast_append_cons p hps, LastIndex_append_cons p hps]
    by_cases hc : colon ∈ s
    · obtain ⟨a, b, e2, hb⟩ := exists_last_split hc
      subst e2
      have e3 : p ++ slash :: (a ++ colon :: b) = (p ++ slash :: a) ++ colon :: b := by simp
      rw [e3, LastIndex_append_cons _ hb]
      simp only [List.length_append, List.length_cons, Nat.cast_add, Nat.cast_one]
      constructor
      · intro h
        omega
      · intro h
        exact absurd hc h
    · have hc2 : colon ∉ slash :: s := by
        simp only [List.mem_cons, not_or]
        exact ⟨fun e => slash_ne_colon e.symm, hc⟩
      rw [LastIndex_append_of_not_mem p hc2]
      exact ⟨fun _ => hc, fun _ => Or.inr (LastIndex_lt p colon)⟩
  · rw [afterLast_of_not_mem hs, LastIndex_of_not_mem hs]
    constructor
    · rintro (h | h)
      · exact (LastIndex_neg_iff tag colon).mp h
      · have := LastIndex_ge tag colon
        omega
    · intro h
      exact Or.inl ((LastIndex_neg_iff tag colon).mpr h)

/-- The value of `Name`, by the part after the last `'/'` alone. -/
theorem Name_eq_afterLast (tag : GoString) :
    (New tag).Name =
      some (if colon ∈ afterLast slash tag then afterLast slash tag
        else afterLast slash tag ++ str ":latest") := by
  rw [Name_eq]
  by_cases h : colon ∈ afterLast slash tag
  · rw [if_pos h, if_neg (fun h2 => (Name_cond_iff_not_mem tag).mp h2 h)]
  · rw [if_neg h, if_pos ((Name_cond_iff_not_mem tag).mpr h)]

/-- The result of `Name` is free of `'/'` and has a `':'`. -/
theorem Name_result_shape (tag : GoString) :
    ∃ r, (New tag).Name = some r ∧ slash ∉ r ∧ colon ∈ r := by
  refine ⟨_, Name_eq_afterLast tag, ?_, ?_⟩
  · split_ifs
    · exact afterLast_not_mem slash tag
    · simp only [List.mem_append, not_or]
      exact ⟨afterLast_not_mem slash tag, by decide⟩
  · split_ifs with h
    · exact h
    · simp only [List.mem_append]
      exact Or.inr (by decide)

/-- A string free of `'/'` that has a `':'` is its own name. -/
theorem Name_fixed {r : GoString} (hs : slash ∉ r) (hc : colon ∈ r) : (New r).Name = some r := by
  rw [Name_eq_afterLast, afterLast_of_not_mem hs, if_pos hc]

/-- C15: `Name` depends only on the part of the reference after its last
`'/'`: for every `p` and every `s` free of `'/'`, `Name(p + "/" + s) = Name(s)`,
whatever `p` holds, a `host:port` colon included. -/
theorem Name_ignores_registry (p s : GoString) (h : slash ∉ s) :
    (New (p ++ slash :: s)).Name = (New s).Name := by
  rw [Name_eq_afterLast, Name_eq_afterLast, afterLast_append_cons p h, afterLast_of_not_mem h]

/-- Instances of C15: a host with a port before an untagged and a tagged name. -/
theorem Name_ignores_registry_witness :
    (New (str "localhost:5000/group" ++ slash :: str "app")).Name = (New (str "app")).Name ∧
    (New (str "localhost:5000/group" ++ slash :: str "app:1.2")).Name =
      (New (str "app:1.2")).Name :=
  ⟨Name_ignores_registry (str "localhost:5000/group") (str "app") (by decide),
   Name_ignores_registry (str "localhost:5000/group") (str "app:1.2") (by decide)⟩

/-- C16: for every input, `Name` answers, and its result has no `'/'` and at
least one `':'`. -/
theorem Name_no_slash_has_colon (tag : GoString) :
    ∃ r, (New tag).Name = some r ∧ slash ∉ r ∧ colon ∈ r :=
  Name_result_shape tag

/-- C17: `Name` is idempotent: for every input, `Name` answers some `r`, and
`Name` of `r` is `r` again; nothing more is stripped and no second
`":latest"` is appended. -/
theorem Name_idempotent (tag : GoString) :
    (∃ r, (New tag).Name = some r ∧ (New r).Name = some r) ∧
    (New tag).Name.bind (fun r => (New r).Name) = (New tag).Name := by
  obtain ⟨r, hr, hs, hc⟩ := Name_result_shape tag
  refine ⟨⟨r, hr, Name_fixed hs hc⟩, ?_⟩
  rw [hr, Option.some_bind, Name_fixed hs hc]

/-! ## The registry as a part of the reference -/

/-- C14, as stated, fails: `"registry.io/group/app:1.2"` resolves to
`r = "registry.io/group"` with `rest = "app:1.2"`; `rest` has no `'/'` while
`r` has one, so "`r` has no `'/'` exactly when `rest` has none" is false. -/
theorem registry_slash_iff_rest_fails :
    ResolveRegistryFromTag (str "registry.io/group/app:1.2") =
      some (str "registry.io/group", none) ∧
    str "registry.io/group/app:1.2" = str "registry.io/group" ++ slash :: str "app:1.2" ∧
    ¬ (slash ∉ str "registry.io/group" ↔ slash ∉ str "app:1.2") := by
  decide

/-- C14, amended: when `ResolveRegistryFromTag(tag)` succeeds with registry
`r`, the reference is `r + "/" + rest` for some `rest`, `r` has at most one
`'/'`, and if `r` has no `'/'` then `rest` has none; `r` has no `'/'` exactly
when the reference has exactly one `'/'`. -/
theorem registry_is_prefix_of_tag (tag r : GoString)
    (h : ResolveRegistryFromTag tag = some (r, none)) :
    ∃ rest, tag = r ++ slash :: rest ∧ r.count slash ≤ 1 ∧
      (slash ∉ r → slash ∉ rest) ∧ (slash ∉ r ↔ tag.count slash = 1) := by
  by_cases hs : slash ∈ tag
  · rcases slash_shapes hs with ⟨a, b, e, ha, hb⟩ | ⟨a, b, c, e, ha, hb⟩
    · subst e
      rw [ResolveRegistryFromTag_one_slash ha hb] at h
      simp only [Option.some.injEq, Prod.mk.injEq, and_true] at h
      subst h
      refine ⟨b, rfl, ?_, fun _ => hb, ?_⟩
      · rw [List.count_eq_zero_of_not_mem ha]
        omega
      · simp [ha, List.count_append, List.count_cons, List.count_eq_zero_of_not_mem ha,
          List.count_eq_zero_of_not_mem hb]
    · subst e
      rw [ResolveRegistryFromTag_two_slashes ha hb] at h
      simp only [Option.some.injEq, Prod.mk.injEq, and_true] at h
      subst h
      have hin : slash ∈ a ++ slash :: b := by simp
      refine ⟨c, rfl, ?_, fun hn => absurd hin hn, ?_⟩
      · simp [List.count_append, List.count_cons, List.count_eq_zero_of_not_mem ha,
          List.count_eq_zero_of_not_mem hb]
      · constructor
        · intro hn
          exact absurd hin hn
        · intro hcount
          simp only [List.count_append, List.count_cons, List.count_eq_zero_of_not_mem ha,
            List.count_eq_zero_of_not_mem hb, beq_self_eq_true, if_true] at hcount
          omega
  · rw [ResolveRegistryFromTag_no_slash hs] at h
    simp at h

/-- Instances of the amended C14: one slash, and two. -/
theorem registry_is_prefix_of_tag_witness :
    (∃ rest, str "registry.io/app:1.2" = str "registry.io" ++ slash :: rest ∧
      (str "registry.io").count slash ≤ 1 ∧
      (slash ∉ str "registry.io" → slash ∉ rest) ∧
      (slash ∉ str "registry.io" ↔ (str "registry.io/app:1.2").count slash = 1)) ∧
    (∃ rest, str "registry.io/group/app:1.2" = str "registry.io/group" ++ slash :: rest ∧
      (str "registry.io/group").count slash ≤ 1 ∧
      (slash ∉ str "registry.io/group" → slash ∉ rest) ∧
      (slash ∉ str "registry.io/group" ↔ (str "registry.io/group/app:1.2").count slash = 1)) :=
  ⟨registry_is_prefix_of_tag (str "registry.io/app:1.2") (str "registry.io") (by decide),
   registry_is_prefix_of_tag (str "registry.io/group/app:1.2") (str "registry.io/group")
     (by decide)⟩

/-! ## Trimming the captured output -/

theorem trimLeftByte_eq_dropWhile (s : GoString) (c : UInt8) :
    trimLeftByte s c = s.dropWhile (fun b => b = c) := by
  induction s with
  | nil => rfl
  | cons b bs ih =>
    by_cases h : b = c
    · simp [trimLeftByte, h, ih]
    · simp [trimLeftByte, h]

theorem trimRightByte_eq_rdropWhile (s : GoString) (c : UInt8) :
    trimRightByte s c = s.rdropWhile (fun b => b = c) := by
  unfold trimRightByte List.rdropWhile
  rw [trimLeftByte_eq_dropWhile]

/-- `trimLeftByte` removes a run of `c` at the front, and what is left does
not begin with `c`. -/
theorem trimLeftByte_spec (s : GoString) (c : UInt8) :
    ∃ a, s = a ++ trimLeftByte s c ∧ (∀ x ∈ a, x = c) ∧ (trimLeftByte s c).head? ≠ some c := by
  induction s with
  | nil => exact ⟨[], rfl, by simp, by simp [trimLeftByte]⟩
  | cons b bs ih =>
    by_cases h : b = c
    · obtain ⟨a, e, ha, hh⟩ := ih
      refine ⟨b :: a, ?_, ?_, ?_⟩
      · simp only [trimLeftByte, if_pos h, List.cons_append]
        rw [← e]
      · intro x hx
        rcases List.mem_cons.mp hx with rfl | hx
        · exact h
        · exact ha x hx
      · simpa only [trimLeftByte, if_pos h] using hh
    · refine ⟨[], by simp [trimLeftByte, h], by simp, ?_⟩
      simp only [trimLeftByte, if_neg h, List.head?_cons, ne_eq, Option.some.injEq]
      exact h

/-- `trimRightByte` removes a run of `c` at the end, and what is left does
not end with `c`. -/
theorem trimRightByte_spec (s : GoString) (c : UInt8) :
    ∃ b, s = trimRightByte s c ++ b ∧ (∀ x ∈ b, x = c) ∧
      (trimRightByte s c).getLast? ≠ some c := by
  obtain ⟨a, e, ha, hh⟩ := trimLeftByte_spec s.reverse c
  refine ⟨a.reverse, ?_, ?_, ?_⟩
  · have := congrArg List.reverse e
    simpa [trimRightByte] using this
  · intro x hx
    exact ha x (List.mem_reverse.mp hx)
  · simpa [trimRightByte] using hh

/-- `strings.Trim` with a one-byte cutset: the input is a run of `c`, the
result, and a run of `c`; the result neither begins nor ends with `c`. -/
theorem Trim_spec (s : GoString) (c : UInt8) :
    ∃ a b, s = a ++ Trim s c ++ b ∧ (∀ x ∈ a, x = c) ∧ (∀ x ∈ b, x = c) ∧
      (Trim s c).head? ≠ some c ∧ (Trim s c).getLast? ≠ some c := by
  obtain ⟨b, e1, hb, hlast⟩ := trimRightByte_spec s c
  obtain ⟨a, e2, ha, hhead⟩ := trimLeftByte_spec (trimRightByte s c) c
  refine ⟨a, b, ?_, ha, hb, hhead, ?_⟩
  · unfold Trim
    rw [← e2, ← e1]
  · intro hl
    apply hlast
    rw [e2, List.getLast?_append]
    unfold Trim at hl
    rw [hl]
    rfl

theorem Trim_of_all {s : GoString} {c : UInt8} (h : ∀ x ∈ s, x = c) : Trim s c = [] := by
  obtain ⟨a, b, e, _, _, hhead, _⟩ := Trim_spec s c
  cases ht : Trim s c with
  | nil => rfl
  | cons x xs =>
    exfalso
    rw [ht] at e hhead
    have hx : x ∈ s := by
      rw [e]
      simp
    rw [h x hx] at hhead
    simp at hhead

theorem trimLeftByte_of_head {s : GoString} {c : UInt8} (h : s.head? ≠ some c) :
    trimLeftByte s c = s := by
  cases s with
  | nil => rfl
  | cons b bs =>
    have hb : ¬ b = c := by
      intro e
      apply h
      simp [e]
    simp [trimLeftByte, hb]

theorem Trim_of_head {s : GoString} {c : UInt8} (h : s.head? ≠ some c) :
    Trim s c = s.rdropWhile (fun b => b = c) := by
  obtain ⟨b, e, _, _⟩ := trimRightByte_spec s c
  unfold Trim
  rw [trimLeftByte_of_head, trimRightByte_eq_rdropWhile]
  intro hh
  apply h
  cases hm : trimRightByte s c with
  | nil => rw [hm] at hh; simp at hh
  | cons x xs =>
    rw [hm] at hh e
    rw [e]
    simpa using hh

/-- C12, as stated, fails: on the output `"\nabc\n"` the trailing newline
removed leaves `"\nabc"`, but `Id` and `ParentId` answer `"abc"`: the leading
newline is removed too. -/
theorem Id_trailing_only_fails :
    (str "\nabc\n").rdropWhile (fun b => b = newline) = str "\nabc" ∧
    ((New (str "app")).Id unixHost (fun _ => (str "\nabc\n", none))).1 = str "abc" ∧
    ((New (str "app")).ParentId unixHost (fun _ => (str "\nabc\n", none))).1 = str "abc" ∧
    ((New (str "app")).Id unixHost (fun _ => (str "\nabc\n", none))).1 ≠
      (str "\nabc\n").rdropWhile (fun b => b = newline) ∧
    ((New (str "app")).ParentId unixHost (fun _ => (str "\nabc\n", none))).1 ≠
      (str "\nabc\n").rdropWhile (fun b => b = newline) := by
  decide

/-- C12, amended: for every output captured by the executor, the string
returned by `Id` (and likewise by `ParentId`) is the output with its leading
and trailing newlines removed: the output is a run of newlines, the result,
and a run of newlines, and the result neither begins nor ends with a newline.
An output of newlines only yields the empty string, and an output that does
not begin with a newline yields the output without its trailing newlines. -/
theorem Id_trims_newlines (host : Host) (img : image)
    (RunCmdOutput : CmdConfig → GoString × Option GoError) :
    (∃ a b, (RunCmdOutput (getImageIdCmd.toConfig ⟨img⟩ host)).1 =
        a ++ (img.Id host RunCmdOutput).1 ++ b ∧
      (∀ x ∈ a, x = newline) ∧ (∀ x ∈ b, x = newline) ∧
      (img.Id host RunCmdOutput).1.head? ≠ some newline ∧
      (img.Id host RunCmdOutput).1.getLast? ≠ some newline) ∧
    (∃ a b, (RunCmdOutput (getParentId.toConfig ⟨img⟩ host)).1 =
        a ++ (img.ParentId host RunCmdOutput).1 ++ b ∧
      (∀ x ∈ a, x = newline) ∧ (∀ x ∈ b, x = newline) ∧
      (img.ParentId host RunCmdOutput).1.head? ≠ some newline ∧
      (img.ParentId host RunCmdOutput).1.getLast? ≠ some newline) ∧
    (∀ (content : GoString) (err : Option GoError),
      ((∀ x ∈ content, x = newline) →
        (img.Id host (fun _ => (content, err))).1 = [] ∧
        (img.ParentId host (fun _ => (content, err))).1 = []) ∧
      (content.head? ≠ some newline →
        (img.Id host (fun _ => (content, err))).1 =
          content.rdropWhile (fun b => b = newline) ∧
        (img.ParentId host (fun _ => (content, err))).1 =
          content.rdropWhile (fun b => b = newline))) := by
  refine ⟨Trim_spec _ newline, Trim_spec _ newline, ?_⟩
  intro content err
  constructor
  · intro h
    exact ⟨Trim_of_all h, Trim_of_all h⟩
  · intro h
    exact ⟨Trim_of_head h, Trim_of_head h⟩

/-- Instances of the amended C12: `"sha256:ab\n"` yields `"sha256:ab"`, and
`"\n\n"` yields the empty string. -/
theorem Id_trims_newlines_witness :
    ((New (str "app")).Id unixHost (fun _ => (str "sha256:ab\n", none))).1 =
      (str "sha256:ab\n").rdropWhile (fun b => b = newline) ∧
    ((New (str "app")).ParentId unixHost (fun _ => (str "\n\n", none))).1 = [] :=
  ⟨((Id_trims_newlines unixHost (New (str "app")) (fun _ => ([], none))).2.2
      (str "sha256:ab\n") none).2 (by decide) |>.1,
   ((Id_trims_newlines unixHost (New (str "app")) (fun _ => ([], none))).2.2
      (str "\n\n") none).1 (by decide) |>.2⟩

/-! ## Cleaning any rooted path -/

/-- The bound on the rounds of `cleanLoop` is never reached when it is at
least the length of what is left to read: one more round changes nothing. -/
theorem cleanLoop_fuel (rooted : Bool) :
    ∀ (fuel : Nat) (rest out : GoString) (dotdot : Nat), rest.length ≤ fuel →
      cleanLoop rooted (fuel + 1) rest out dotdot = cleanLoop rooted fuel rest out dotdot := by
  intro fuel
  induction fuel with
  | zero =>
    intro rest out dotdot h
    have : rest = [] := List.length_eq_zero.mp (Nat.le_zero.mp h)
    subst this
    simp [cleanLoop]
  | succ n ih =>
    intro rest out dotdot h
    cases rest with
    | nil => simp [cleanLoop]
    | cons c cs =>
      have hcs : cs.length ≤ n := by
        simp only [List.length_cons] at h
        omega
      have htail : cs.tail.length ≤ n := by
        rw [List.length_tail]
        omega
      have hdrop : ((c :: cs).dropWhile (fun b => b ≠ slash)).length ≤ n ∨ c = slash := by
        by_cases hc : c = slash
        · exact Or.inr hc
        · left
          rw [List.dropWhile_cons_of_pos (by simpa using hc)]
          exact le_trans (List.dropWhile_suffix _).length_le hcs
      simp only [cleanLoop]
      split_ifs
      all_goals first
        | exact ih _ _ _ hcs
        | exact ih _ _ _ htail
        | exact ih _ _ _ (hdrop.resolve_right (by assumption))

theorem unwind_element (t X : List UInt8) :
    ∀ c : UInt8, c ≠ slash → slash ∉ t →
      unwind 1 c (t ++ slash :: X) = if X = [] then [slash] else X := by
  induction t with
  | nil =>
    intro c hc _
    cases X with
    | nil => simp [unwind]
    | cons x X => simp [unwind, hc]
  | cons d t ih =>
    intro c hc ht
    have hd : d ≠ slash := fun e => ht (by simp [e])
    have ht2 : slash ∉ t := fun e => ht (by simp [e])
    rw [List.cons_append, unwind, if_pos ⟨by simp, hc⟩]
    exact ih d hd ht2

/-- The `..` case on a buffer `/s1/.../sn/s`: the last element goes, and its
`'/'` too unless it is the root. -/
theorem backtrack_rootedPath (segs : List GoString) {s : GoString} (hs : s ≠ [] ∧ slash ∉ s) :
    backtrack 1 (rootedPath (segs ++ [s])) = if segs = [] then [slash] else rootedPath segs := by
  obtain ⟨c, t, hct⟩ : ∃ c t, s.reverse = c :: t := by
    cases h : s.reverse with
    | nil => exact absurd (List.reverse_eq_nil_iff.mp h) hs.1
    | cons c t => exact ⟨c, t, rfl⟩
  have hc : c ≠ slash := by
    intro e
    apply hs.2
    rw [← List.mem_reverse, hct, e]
    simp
  have ht : slash ∉ t := by
    intro e
    apply hs.2
    rw [← List.mem_reverse, hct]
    simp [e]
  have e : (rootedPath (segs ++ [s])).reverse = c :: (t ++ slash :: (rootedPath segs).reverse) := by
    rw [rootedPath_append, rootedPath_singleton]
    simp [hct]
  unfold backtrack
  rw [e]
  simp only [unwind_element t _ c hc ht]
  cases segs with
  | nil => simp [rootedPath]
  | cons u segs => simp [rootedPath]

theorem rootedPath_length {segs : List GoString} (hne : segs ≠ [])
    (h : ∀ s ∈ segs, s ≠ [] ∧ slash ∉ s) : 1 < (rootedPath segs).length := by
  cases segs with
  | nil => exact absurd rfl hne
  | cons s segs =>
    have := List.length_pos.mpr (h s (List.mem_cons_self _ _)).1
    simp only [rootedPath, List.cons_append, List.length_cons, List.length_append]
    omega

theorem RootedNormal_backtrack {out : GoString} (h : RootedNormal out) (hlen : 1 < out.length) :
    RootedNormal (backtrack 1 out) := by
  rcases h with rfl | ⟨segs, hne, hall, rfl⟩
  · simp at hlen
  · rcases List.eq_nil_or_concat segs with e | ⟨init, s, e⟩
    · exact absurd e hne
    · rw [List.concat_eq_append] at e
      subst e
      have hs := hall s (by simp)
      rw [backtrack_rootedPath init hs]
      split_ifs with hi
      · exact Or.inl rfl
      · exact Or.inr ⟨init, hi, fun u hu => hall u (by simp [hu]), rfl⟩

theorem RootedNormal_element {out : GoString} (h : RootedNormal out) {e : GoString}
    (he : e ≠ [] ∧ slash ∉ e) :
    RootedNormal ((if out.length ≠ 1 then out ++ [slash] else out) ++ e) := by
  rcases h with rfl | ⟨segs, hne, hall, rfl⟩
  · refine Or.inr ⟨[e], by simp, ?_, by simp [rootedPath]⟩
    intro s hs
    rw [List.mem_singleton.mp hs]
    exact he
  · have hlen := rootedPath_length hne hall
    rw [if_pos (by omega)]
    refine Or.inr ⟨segs ++ [e], by simp, ?_, ?_⟩
    · intro s hs
      rcases List.mem_append.mp hs with hs | hs
      · exact hall s hs
      · rw [List.mem_singleton.mp hs]
        exact he
    · rw [rootedPath_append, rootedPath_singleton]
      simp

/-- The loop of `path.Clean` keeps a rooted buffer rooted and normalised. -/
theorem cleanLoop_RootedNormal :
    ∀ (fuel : Nat) (rest out : GoString), RootedNormal out →
      RootedNormal (cleanLoop true fuel rest out 1) := by
  intro fuel
  induction fuel with
  | zero =>
    intro rest out h
    simpa [cleanLoop] using h
  | succ n ih =>
    intro rest out h
    cases rest with
    | nil => simpa [cleanLoop] using h
    | cons c cs =>
      rw [cleanLoop]
      by_cases h1 : c = slash
      · rw [if_pos h1]
        exact ih _ _ h
      · rw [if_neg h1]
        by_cases h2 : c = dot ∧ (cs = [] ∨ cs.head? = some slash)
        · rw [if_pos h2]
          exact ih _ _ h
        · rw [if_neg h2]
          by_cases h3 : c = dot ∧ cs.head? = some dot ∧
              (cs.tail = [] ∨ cs.tail.head? = some slash)
          · rw [if_pos h3]
            by_cases h4 : out.length > 1
            · rw [if_pos h4]
              exact ih _ _ (RootedNormal_backtrack h h4)
            · rw [if_neg h4, if_neg (by decide)]
              exact ih _ _ h
          · rw [if_neg h3]
            have hcond : ((True ∧ out.length ≠ 1) ∨ (true = false ∧ out.length ≠ 0)) ↔
                out.length ≠ 1 := by simp
            have helem : (c :: cs).takeWhile (fun b => b ≠ slash) ≠ [] ∧
                slash ∉ (c :: cs).takeWhile (fun b => b ≠ slash) := by
              constructor
              · rw [List.takeWhile_cons_of_pos (by simpa using h1)]
                simp
              · intro hm
                have := List.mem_takeWhile_imp hm
                simp at this
            have key := ih ((c :: cs).dropWhile (fun b => b ≠ slash)) _
              (RootedNormal_element h helem)
            simpa only [hcond] using key

theorem RootedNormal_head {out : GoString} (h : RootedNormal out) : out.head? = some slash := by
  rcases h with rfl | ⟨segs, hne, _, rfl⟩
  · rfl
  · cases segs with
    | nil => exact absurd rfl hne
    | cons s segs => rfl

theorem infix_of_not_mem {s : GoString} (hs : slash ∉ s) (R : GoString) :
    [slash, slash] <:+: s ++ R → [slash, slash] <:+: R := by
  induction s with
  | nil => simp
  | cons c s ih =>
    have hc : slash ≠ c := fun e => hs (by simp [e])
    have hs2 : slash ∉ s := fun e => hs (by simp [e])
    intro h
    rw [List.cons_append, List.infix_cons_iff] at h
    rcases h with h | h
    · rw [List.cons_prefix_cons] at h
      exact absurd h.1 hc
    · exact ih hs2 h

theorem not_infix_rootedPath {segs : List GoString} (h : ∀ s ∈ segs, s ≠ [] ∧ slash ∉ s) :
    ¬ [slash, slash] <:+: rootedPath segs := by
  induction segs with
  | nil =>
    intro hi
    have := hi.length_le
    simp [rootedPath] at this
  | cons s segs ih =>
    have hs := h s (List.mem_cons_self _ _)
    intro hi
    rw [rootedPath, List.cons_append, List.infix_cons_iff] at hi
    rcases hi with hi | hi
    · rw [List.cons_prefix_cons] at hi
      cases s with
      | nil => exact hs.1 rfl
      | cons c s =>
        rw [List.cons_append, List.cons_prefix_cons] at hi
        exact hs.2 (by simp [hi.2.1])
    · exact ih (fun t ht => h t (List.mem_cons_of_mem _ ht)) (infix_of_not_mem hs.2 _ hi)

theorem RootedNormal_no_double {out : GoString} (h : RootedNormal out) :
    ¬ [slash, slash] <:+: out := by
  rcases h with rfl | ⟨segs, _, hall, rfl⟩
  · intro hi
    have := hi.length_le
    simp at this
  · exact not_infix_rootedPath hall

theorem RootedNormal_last {out : GoString} (h : RootedNormal out)
    (hl : out.getLast? = some slash) : out = [slash] := by
  rcases h with rfl | ⟨segs, hne, hall, rfl⟩
  · rfl
  · exfalso
    rcases List.eq_nil_or_concat segs with e | ⟨init, s, e⟩
    · exact hne e
    · rw [List.concat_eq_append] at e
      subst e
      have hs := hall s (by simp)
      rcases List.eq_nil_or_concat s with e2 | ⟨s', x, e2⟩
      · exact hs.1 e2
      · rw [List.concat_eq_append] at e2
        subst e2
        rw [rootedPath_append, rootedPath_singleton] at hl
        have e3 : rootedPath init ++ slash :: (s' ++ [x]) =
            (rootedPath init ++ slash :: s') ++ [x] := by simp
        rw [e3, List.getLast?_concat] at hl
        simp only [Option.some.injEq] at hl
        exact hs.2 (by simp [hl])

/-- `path.Clean` of a rooted path is rooted and normalised. -/
theorem Clean_RootedNormal {p : GoString} (h : p.head? = some slash) : RootedNormal (Clean p) := by
  have hinv := cleanLoop_RootedNormal p.length p.tail [slash] (Or.inl rfl)
  have hne : p ≠ [] := by
    intro e
    rw [e] at h
    simp at h
  have hlen : (cleanLoop true p.length p.tail [slash] 1).length ≠ 0 := by
    intro e
    have := RootedNormal_head hinv
    rw [List.length_eq_zero.mp e] at this
    simp at this
  unfold Clean
  simp only [if_neg hne, h, decide_True, if_true, if_neg hlen]
  exact hinv

/-! ## The path of an image is rooted -/

theorem Join_rooted (a b : GoString) :
    Join [slash :: a, b] = Clean (slash :: (a ++ slash :: b)) := by
  rw [Join, if_pos (by simp)]
  simp [List.intercalate]

/-- With a `'/'` in the reference `Path` answers, and joins a first part that
begins with the first `'/'`. -/
theorem Path_of_mem_slash {tag : GoString} (h : slash ∈ tag) :
    ∃ a b, (New tag).Path = some (Join [slash :: a, b]) := by
  obtain ⟨p, t, e, hp⟩ := exists_first_split h
  subst e
  have hi := IsFirstAt_append_cons hp t
  obtain ⟨hA, hB⟩ := Path_of_first_slash hi
  have hdrop : (p ++ slash :: t).drop p.length = slash :: t := List.drop_left p _
  by_cases hc : colon ∈ p ++ slash :: t
  · obtain ⟨x, y, e2, hy⟩ := exists_last_split hc
    have hj : IsLastAt (p ++ slash :: t) colon x.length := by
      rw [e2]
      exact IsLastAt_append_cons x hy
    by_cases hlt : x.length < p.length
    · refine ⟨t, str "latest", ?_⟩
      rw [hA (Or.inr ⟨_, hj, hlt⟩), hdrop]
    · have hne : x.length ≠ p.length := by
        intro e3
        have h1 := hj.1
        rw [e3, hi.1] at h1
        exact slash_ne_colon (Option.some.inj h1)
      obtain ⟨k, hk⟩ : ∃ k, x.length = p.length + (k + 1) := ⟨x.length - p.length - 1, by omega⟩
      refine ⟨t.take k, (p ++ slash :: t).drop (x.length + 1), ?_⟩
      rw [hB _ hj hlt, hk, List.take_append, List.take_succ_cons, List.drop_left]
  · refine ⟨t, str "latest", ?_⟩
    rw [hA (Or.inl hc), hdrop]

/-- C18: for every reference with a `'/'`, `Path` answers a rooted,
normalised path: it begins with `'/'`, has no `"//"` in it, and does not end
with `'/'` unless it is `"/"` itself. -/
theorem Path_rooted_normalised (tag : GoString) (h : slash ∈ tag) :
    ∃ r, (New tag).Path = some r ∧ r.head? = some slash ∧ ¬ (str "//" <:+: r) ∧
      (r.getLast? = some slash → r = str "/") := by
  obtain ⟨a, b, e⟩ := Path_of_mem_slash h
  have hn : RootedNormal (Join [slash :: a, b]) := by
    rw [Join_rooted]
    exact Clean_RootedNormal rfl
  exact ⟨_, e, RootedNormal_head hn, RootedNormal_no_double hn, RootedNormal_last hn⟩

/-- Instances of C18: a reference whose path needs cleaning, and one whose
path is the bare root. -/
theorem Path_rooted_normalised_witness :
    (∃ r, (New (str "host//a/./b/../c/:")).Path = some r ∧ r.head? = some slash ∧
      ¬ (str "//" <:+: r) ∧ (r.getLast? = some slash → r = str "/")) ∧
    (∃ r, (New (str "host/:")).Path = some r ∧ r.head? = some slash ∧
      ¬ (str "//" <:+: r) ∧ (r.getLast? = some slash → r = str "/")) :=
  ⟨Path_rooted_normalised (str "host//a/./b/../c/:") (by decide),
   Path_rooted_normalised (str "host/:") (by decide)⟩

end Docker
